import Mathlib

/-!
# Region map of the engine (`engine/regions.go`)

A shallow embedding of the region map: the resident byte map, the history of
region definitions, the rasterizer (`render`), the replay on resize, the
single-cell writes, the sliding-window shift and the volume of a region; and of
the two face setters of the staggered mask (`engine/mask.go`).

Conventions of the embedding.
* Go `int` values are `Int`; mesh extents, which are never negative, are `Nat`.
* A `byte` is a `Nat`; the conversion `byte(id)` is `toByte`, reduction modulo 256.
* The accelerator buffer `cuda.Bytes` is the list of its bytes.
* The global mesh `Mesh()` is passed explicitly, and so is the global `regions`.
* `util.Fatalf`, `util.Argument` and runtime panics are the three errors of `Err`.
* World coordinates (`data.Vector`) are kept abstract as a type `V`: the code
  only hands them from `Index2Coord` to a shape.
-/

namespace Engine

/-- Ways in which an operation of the engine aborts. -/
inductive Err where
  /-- Raised by `util.Fatalf`: a configuration error. -/
  | fatal
  /-- Raised by `util.Argument`: an argument test that does not hold. -/
  | argument
  /-- Raised by the runtime: an index or a length out of range. -/
  | panic
  deriving DecidableEq, Repr

/-- The constant `NREGION` of `regions.go`. -/
def NREGION : Int := 256

/-- The conversion `byte(id)` of a Go `int`. -/
def toByte (id : Int) : Nat := (id % 256).toNat

/-- Modelled from the spec: the Mesh Provider, which is not part of `regions.go`.
It gives the grid dimensions, says whether the mesh has been configured, and
maps a cell index to the world coordinate of the cell centre (`Index2Coord`,
which includes the current shift of the window). -/
structure Mesh (V : Type) where
  /-- Whether the mesh has been configured. -/
  isSet : Bool
  /-- Cells along X. -/
  Nx : Nat
  /-- Cells along Y. -/
  Ny : Nat
  /-- Cells along Z. -/
  Nz : Nat
  /-- The function `Index2Coord(ix, iy, iz)`. -/
  index2Coord : Int → Int → Int → V

/-- The number of cells `NCell()`, which is also `prod(Size())`. -/
def Mesh.NCell {V : Type} (m : Mesh V) : Nat := m.Nx * m.Ny * m.Nz

/-- A shape is a predicate on world coordinates. -/
abbrev Shape (V : Type) := V → Bool

/-- The struct `regionHist`: one entry of the history of definitions. -/
structure regionHist (V : Type) where
  /-- The region number. -/
  region : Int
  /-- The shape of the region. -/
  shape : Shape V

/-- The struct `Regions`: the resident map and the history. -/
structure Regions (V : Type) where
  /-- The bytes of the buffer `gpuCache`. -/
  gpuCache : List Nat
  /-- The history `deflist`. -/
  deflist : List (regionHist V)

/-- A Go loop `for i := 0; i < n; i++ { body }` over a state that may abort. -/
def forLoop {α : Type} (body : Nat → α → Except Err α) : Nat → α → Except Err α
  | 0, a => .ok a
  | n + 1, a =>
    match forLoop body n a with
    | .error e => .error e
    | .ok a' => body n a'

/-- A Go loop `for _, d := range ds { body }` over a state that may abort. -/
def forRange {α β : Type} (body : β → α → Except Err α) : List β → α → Except Err α
  | [], a => .ok a
  | d :: ds, a =>
    match body d a with
    | .error e => .error e
    | .ok a' => forRange body ds a'

/-- Modelled from the spec: `checkMesh`, which is not part of `regions.go`. A
definition attempted before the mesh is configured is a fatal configuration
error. -/
def checkMesh {V : Type} (m : Mesh V) : Except Err Unit :=
  if m.isSet then .ok () else .error .fatal

/-- The function `defRegionId`. -/
def defRegionId {V : Type} (m : Mesh V) (id : Int) : Except Err Unit :=
  if id < 0 || id > NREGION then .error .fatal else checkMesh m

/-- Modelled from the spec: `data.Index`, which is not part of `regions.go`. The
bounds-checked map from a cell `(ix, iy, iz)` to its flat index
`(iz*Ny + iy)*Nx + ix`. -/
def Index {V : Type} (m : Mesh V) (ix iy iz : Int) : Except Err Nat :=
  if ix < 0 || ix ≥ m.Nx || iy < 0 || iy ≥ m.Ny || iz < 0 || iz ≥ m.Nz then .error .panic
  else .ok (((iz * m.Ny + iy) * m.Nx + ix).toNat)

/-- Modelled from the spec: `cuda.NewBytes`, the `allocate` of the buffer backend,
which yields a buffer of the given size filled with id 0. -/
def NewBytes (n : Nat) : List Nat := List.replicate n 0

/-- Modelled from the spec: `Bytes.Set`, the `writeByte` of the buffer backend. -/
def BytesSet (gpu : List Nat) (index : Nat) (value : Nat) : Except Err (List Nat) :=
  if index < gpu.length then .ok (gpu.set index value) else .error .panic

/-- Modelled from the spec: `Bytes.Download`, into a host array of `n` bytes. -/
def Download (gpu : List Nat) (n : Nat) : Except Err (List Nat) :=
  if gpu.length = n then .ok gpu else .error .panic

/-- Modelled from the spec: `Bytes.Upload` of a host array. -/
def Upload (gpu : List Nat) (host : List Nat) : Except Err (List Nat) :=
  if gpu.length = host.length then .ok host else .error .panic

/-- The method `HostList`. -/
def HostList {V : Type} (m : Mesh V) (r : Regions V) : Except Err (List Nat) :=
  Download r.gpuCache m.NCell

/-- A Go slice `array[lo : lo+len]`: a window on the backing array `array`. -/
structure SliceHdr where
  /-- Offset of the window in the backing array. -/
  lo : Nat
  /-- Length of the window. -/
  len : Nat
  deriving DecidableEq, Repr

/-- The function `reshapeBytes`: `Nz` lists of `Ny` windows of length `Nx` on
`array`. The upper bound of each window is within `array` by the length test. -/
def reshapeBytes (array : List Nat) (Nx Ny Nz : Nat) : Except Err (List (List SliceHdr)) :=
  if Nx * Ny * Nz = array.length then
    .ok ((List.range Nz).map fun i => (List.range Ny).map fun j => ⟨(i * Ny + j) * Nx + 0, Nx⟩)
  else .error .argument

/-- The assignment `arr[iz][iy][ix] = v`, which writes through the window into
the backing array `l` and panics when an index is out of range. -/
def arrSet (arr : List (List SliceHdr)) (l : List Nat) (iz iy ix : Nat) (v : Nat) :
    Except Err (List Nat) :=
  match arr[iz]? with
  | none => .error .panic
  | some plane =>
    match plane[iy]? with
    | none => .error .panic
    | some row => if ix < row.len then .ok (l.set (row.lo + ix) v) else .error .panic

/-- The read `arr[iz][iy][ix]` through the window into the backing array `l`. -/
def arrGet (arr : List (List SliceHdr)) (l : List Nat) (iz iy ix : Nat) : Except Err Nat :=
  match arr[iz]? with
  | none => .error .panic
  | some plane =>
    match plane[iy]? with
    | none => .error .panic
    | some row =>
      if ix < row.len then
        match l[row.lo + ix]? with
        | some v => .ok v
        | none => .error .panic
      else .error .panic

/-- The three nested loops of `render`. -/
def renderLoops {V : Type} (m : Mesh V) (arr : List (List SliceHdr)) (id : Int) (s : Shape V)
    (l : List Nat) : Except Err (List Nat) :=
  forLoop (fun iz l =>
    forLoop (fun iy l =>
      forLoop (fun ix l =>
        if s (m.index2Coord ix iy iz) then arrSet arr l iz iy ix (toByte id) else .ok l)
        m.Nx l)
      m.Ny l)
    m.Nz l

/-- The method `render`. -/
def render {V : Type} (m : Mesh V) (r : Regions V) (id : Int) (s : Shape V) :
    Except Err (Regions V) :=
  match HostList m r with
  | .error e => .error e
  | .ok l =>
    match reshapeBytes l m.Nx m.Ny m.Nz with
    | .error e => .error e
    | .ok arr =>
      match renderLoops m arr id s l with
      | .error e => .error e
      | .ok l' =>
        match Upload r.gpuCache l' with
        | .error e => .error e
        | .ok g => .ok { r with gpuCache := g }

/-- The function `DefRegion`. -/
def DefRegion {V : Type} (m : Mesh V) (r : Regions V) (id : Int) (s : Shape V) :
    Except Err (Regions V) :=
  match defRegionId m id with
  | .error e => .error e
  | .ok _ =>
    match render m r id s with
    | .error e => .error e
    | .ok r' => .ok { r' with deflist := r'.deflist ++ [⟨id, s⟩] }

/-- The method `resize`, on the new mesh `m`. -/
def resize {V : Type} (m : Mesh V) (r : Regions V) : Except Err (Regions V) :=
  forRange (fun d r => render m r d.region d.shape) r.deflist
    { r with gpuCache := NewBytes (m.Nx * m.Ny * m.Nz) }

/-- The loop of the method `get`, from index `i - 1` down to `0`. -/
def getLoop {V : Type} (deflist : List (regionHist V)) (R : V) : Nat → Int
  | 0 => 0
  | i + 1 =>
    match deflist[i]? with
    | some d => if d.shape R then d.region else getLoop deflist R i
    | none => getLoop deflist R i

/-- The method `get`. -/
def get {V : Type} (r : Regions V) (R : V) : Int :=
  getLoop r.deflist R r.deflist.length

/-- The function `DefRegionCell`. -/
def DefRegionCell {V : Type} (m : Mesh V) (r : Regions V) (id : Int) (x y z : Int) :
    Except Err (Regions V) :=
  match defRegionId m id with
  | .error e => .error e
  | .ok _ =>
    match Index m z y x with
    | .error e => .error e
    | .ok index =>
      match BytesSet r.gpuCache index (toByte id) with
      | .error e => .error e
      | .ok g => .ok { r with gpuCache := g }

/-- The method `SetCell`. -/
def SetCell {V : Type} (m : Mesh V) (r : Regions V) (ix iy iz : Int) (region : Int) :
    Except Err (Regions V) :=
  match Index m ix iy iz with
  | .error e => .error e
  | .ok i =>
    match BytesSet r.gpuCache i (toByte region) with
    | .error e => .error e
    | .ok g => .ok { r with gpuCache := g }

/-- Modelled from the spec: `cuda.ShiftBytes`, the `shiftWindow` of the buffer
backend. The contents move by `dx` cells along X; a cell whose source lies outside
the old window gets the fill value. -/
def ShiftBytes {V : Type} (m : Mesh V) (src : List Nat) (dx : Int) (fill : Nat) :
    Except Err (List Nat) :=
  if src.length = m.NCell then
    .ok ((List.range m.NCell).map fun j =>
      let ix2 : Int := ((j % m.Nx : Nat) : Int) - dx
      if ix2 < 0 || ix2 ≥ m.Nx then fill else src.getD ((j : Int) - dx).toNat fill)
  else .error .panic

/-- Modelled from the spec: `shiftDirtyRange`, the newly exposed boundary slab, of
width `|dx|`, at the edge given by the sign of `dx`. -/
def shiftDirtyRange {V : Type} (m : Mesh V) (dx : Int) : Int × Int :=
  if dx < 0 then ((m.Nx : Int) + dx, (m.Nx : Int)) else (0, dx)

/-- The three nested loops of `shift`, over the slab `x1 ≤ ix < x2`. -/
def shiftLoops {V : Type} (m : Mesh V) (x1 x2 : Int) (b : Regions V) : Except Err (Regions V) :=
  forLoop (fun iz b =>
    forLoop (fun iy b =>
      forLoop (fun k b =>
        let ix : Int := x1 + k
        let reg := get b (m.index2Coord ix iy iz)
        if reg ≠ 0 then SetCell m b ix iy iz reg else .ok b)
        (x2 - x1).toNat b)
      m.Ny b)
    m.Nz b

/-- The method `shift`. -/
def shift {V : Type} (m : Mesh V) (b : Regions V) (dx : Int) : Except Err (Regions V) :=
  match ShiftBytes m b.gpuCache dx 0 with
  | .error e => .error e
  | .ok r2 =>
    let x := shiftDirtyRange m dx
    shiftLoops m x.1 x.2 { b with gpuCache := r2 }

/-- The flat index of the cell `(ix, iy, iz)` in the layout of the map. -/
def flat {V : Type} (m : Mesh V) (ix iy iz : Nat) : Nat := (iz * m.Ny + iy) * m.Nx + ix

/-- A sequence of calls of `DefRegion`, in order. -/
def defRegions {V : Type} (m : Mesh V) (ds : List (regionHist V)) (r : Regions V) :
    Except Err (Regions V) :=
  forRange (fun d r => DefRegion m r d.region d.shape) ds r

/-- A sequence of calls of `resize`, one for each mesh in turn. -/
def resizes {V : Type} (ms : List (Mesh V)) (r : Regions V) : Except Err (Regions V) :=
  forRange (fun m r => resize m r) ms r

/-- Painting the entries of a history, in order, onto the all-zero map of the mesh. -/
def paintHistory {V : Type} (m : Mesh V) (H : List (regionHist V)) : Except Err (List Nat) :=
  H.foldl (fun acc d =>
    match acc with
    | .error e => .error e
    | .ok l =>
      match render m ⟨l, []⟩ d.region d.shape with
      | .error e => .error e
      | .ok r => .ok r.gpuCache) (.ok (List.replicate m.NCell 0))

/-- A small mesh for examples: integer coordinates, the cell index as coordinate. -/
def gridMesh (nx ny nz : Nat) : Mesh (Int × Int × Int) :=
  ⟨true, nx, ny, nz, fun ix iy iz => (ix, iy, iz)⟩

/-- A mesh as `gridMesh` whose window has moved by `off` cells along X. -/
def gridMeshAt (nx ny nz : Nat) (off : Int) : Mesh (Int × Int × Int) :=
  ⟨true, nx, ny, nz, fun ix iy iz => (ix - off, iy, iz)⟩

/-- The map of a result, if there is a result. -/
def mapOf {V : Type} (x : Except Err (Regions V)) : Option (List Nat) :=
  match x with
  | .error _ => none
  | .ok r => some r.gpuCache

/-- An entry of the history carries a region id between 0 and 255. -/
def validEntry {V : Type} (d : regionHist V) : Prop := 0 ≤ d.region ∧ d.region ≤ 255

/-- The cells that `render` writes (index `j`) and the value it writes there (`v`). -/
def renderW {V : Type} (m : Mesh V) (id : Int) (s : Shape V) (j v : Nat) : Prop :=
  ∃ iz, iz < m.Nz ∧ ∃ iy, iy < m.Ny ∧ ∃ ix, ix < m.Nx ∧
    (s (m.index2Coord ix iy iz) = true ∧ j = flat m ix iy iz ∧ v = toByte id)

/-- The block `F` keeps `Inv`, keeps the length of the map `proj a`, leaves a written
value in every cell that `W` marks as written, and leaves the other cells as they were. -/
def Paints {α : Type} (Inv : α → Prop) (proj : α → List Nat) (W : Nat → Nat → Prop)
    (F : α → Except Err α) : Prop :=
  ∀ a a', Inv a → F a = .ok a' →
    Inv a' ∧ (proj a').length = (proj a).length ∧
    ∀ j, ((∃ v, W j v) → j < (proj a).length → ∃ v, W j v ∧ (proj a')[j]? = some v) ∧
         ((¬ ∃ v, W j v) → (proj a')[j]? = (proj a)[j]?)

/-- The cells that the loops of `shift` write over the slab `x1 ≤ ix < x2` (index `j`) and
the values written there (`v`), for the history `H`. -/
def shiftW {V : Type} (m : Mesh V) (H : List (regionHist V)) (x1 x2 : Int) (j v : Nat) : Prop :=
  ∃ iz, iz < m.Nz ∧ ∃ iy, iy < m.Ny ∧ ∃ k, k < (x2 - x1).toNat ∧
    (get ⟨[], H⟩ (m.index2Coord (x1 + (k : Nat)) (iy : Nat) (iz : Nat)) ≠ 0 ∧
      Index m (x1 + (k : Nat)) (iy : Nat) (iz : Nat) = .ok j ∧
      v = toByte (get ⟨[], H⟩ (m.index2Coord (x1 + (k : Nat)) (iy : Nat) (iz : Nat))))

/-- The counting loop of `volume`: the number of entries of `list` equal to `region`. -/
def volLoop (region : Nat) (list : List Nat) : Nat :=
  list.foldl (fun vol reg => if reg = region then vol + 1 else vol) 0

/-- The method `volume`, with the quotient taken in exact arithmetic. -/
def volume {V : Type} (m : Mesh V) (r : Regions V) (region_ : Int) : Except Err ℚ :=
  match HostList m r with
  | .error e => .error e
  | .ok list => .ok ((volLoop (toByte region_) list : ℚ) / (m.NCell : ℚ))

/-- The global `regions` after a call of `DefRegion`, with the way the call ended. The id is
checked first; `render` replaces the map in its last step only, so a call that aborts leaves
the state as it was; a call that returns has rendered and then appended. -/
def DefRegionRun {V : Type} (m : Mesh V) (r : Regions V) (id : Int) (s : Shape V) :
    Regions V × Except Err Unit :=
  match defRegionId m id with
  | .error e => (r, .error e)
  | .ok _ =>
    match render m r id s with
    | .error e => (r, .error e)
    | .ok r' => ({ r' with deflist := r'.deflist ++ [⟨id, s⟩] }, .ok ())

/-- The global `regions` after a call of `DefRegionCell`, with the way the call ended. The id
is checked first, then the index is computed, then the byte is written. -/
def DefRegionCellRun {V : Type} (m : Mesh V) (r : Regions V) (id : Int) (x y z : Int) :
    Regions V × Except Err Unit :=
  match defRegionId m id with
  | .error e => (r, .error e)
  | .ok _ =>
    match Index m z y x with
    | .error e => (r, .error e)
    | .ok index =>
      match BytesSet r.gpuCache index (toByte id) with
      | .error e => (r, .error e)
      | .ok g => ({ r with gpuCache := g }, .ok ())

/-- Modelled from the spec: the shape `universe` (a reserved word here, hence the longer
name), the background, which holds everywhere. -/
def universeShape {V : Type} : Shape V := fun _ => true

/-- The method `alloc`, on the buffer `fresh` that `cuda.NewBytes(mesh.NCell())` hands out. -/
def allocOn {V : Type} (m : Mesh V) (r : Regions V) (fresh : List Nat) :
    Except Err (Regions V) :=
  DefRegion m { r with gpuCache := fresh } 0 universeShape

/-- The method `alloc`. -/
def alloc {V : Type} (m : Mesh V) (r : Regions V) : Except Err (Regions V) :=
  allocOn m r (NewBytes m.NCell)

/-- A step that builds the map from definitions: a call of `DefRegion` on the current mesh,
or a change of the mesh followed by `resize`. -/
inductive Op (V : Type) where
  /-- A call `DefRegion(id, s)`. -/
  | define (id : Int) (s : Shape V)
  /-- A change to the mesh `m`, followed by `resize`. -/
  | resizeTo (m : Mesh V)

/-- One step on the current mesh and the current `regions`. -/
def runOp {V : Type} (op : Op V) (st : Mesh V × Regions V) : Except Err (Mesh V × Regions V) :=
  match op with
  | .define id s =>
    match DefRegion st.1 st.2 id s with
    | .error e => .error e
    | .ok r' => .ok (st.1, r')
  | .resizeTo m' =>
    match resize m' st.2 with
    | .error e => .error e
    | .ok r' => .ok (m', r')

/-- A sequence of steps, in order. -/
def runOps {V : Type} (ops : List (Op V)) (st : Mesh V × Regions V) :
    Except Err (Mesh V × Regions V) :=
  forRange runOp ops st

/-- The method `StaggeredMask.SetSide1`. The function `swapIndex`, the method `init` and
`cuda.SetCell` are not part of `mask.go` and are taken as they come. -/
def SetSide1 {S Val : Type} (swapIndex : Int → Int → Int) (init : S → S)
    (setCell : S → Int → Int → Int → Int → Val → Except Err S) (slice : S)
    (direction : Int) (ix iy iz : Int) (value : Val) : Except Err S :=
  setCell (init slice) (swapIndex direction 3) iz iy ix value

/-- The method `StaggeredMask.SetSide2`, on a mesh of size `[s0, s1, s2]`. The arrays `i`
and `size` are lists of three entries; an index outside them is a panic. -/
def SetSide2 {S Val : Type} (swapIndex : Int → Int → Int) (init : S → S)
    (setCell : S → Int → Int → Int → Int → Val → Except Err S) (s0 s1 s2 : Int) (slice : S)
    (direction : Int) (ix iy iz : Int) (value : Val) : Except Err S :=
  let m := init slice
  let direction := swapIndex direction 3
  let i : List Int := [iz, iy, ix]
  if direction < 0 || direction ≥ 3 then .error .panic
  else
    let d := direction.toNat
    let i := i.set d (i.getD d 0 + 1)
    let size : List Int := [s0, s1, s2]
    let i := if i.getD d 0 = size.getD d 0 then i.set d 0 else i
    setCell m direction (i.getD 0 0) (i.getD 1 0) (i.getD 2 0) value

/-! ## Loops -/

/-- A loop whose body keeps `P` and never aborts on a state with `P` runs to the end. -/
theorem forLoop_total {α : Type} (P : α → Prop) (body : Nat → α → Except Err α) (n : Nat)
    (h : ∀ i, i < n → ∀ a, P a → ∃ a', body i a = .ok a' ∧ P a') :
    ∀ a, P a → ∃ a', forLoop body n a = .ok a' ∧ P a' := by
  induction n with
  | zero => intro a ha; exact ⟨a, rfl, ha⟩
  | succ n ih =>
    intro a ha
    obtain ⟨a1, h1, hP1⟩ := ih (fun i hi => h i (Nat.lt_succ_of_lt hi)) a ha
    obtain ⟨a2, h2, hP2⟩ := h n (Nat.lt_succ_self n) a1 hP1
    exact ⟨a2, by simp [forLoop, h1, h2], hP2⟩

/-- A run of `forLoop` over `n + 1` rounds splits at the last round. -/
theorem forLoop_succ_ok {α : Type} (body : Nat → α → Except Err α) (n : Nat) (a a' : α)
    (h : forLoop body (n + 1) a = .ok a') :
    ∃ a1, forLoop body n a = .ok a1 ∧ body n a1 = .ok a' := by
  unfold forLoop at h
  cases h1 : forLoop body n a with
  | error e => rw [h1] at h; cases h
  | ok a1 => rw [h1] at h; exact ⟨a1, rfl, h⟩

/-- A loop over a list whose body keeps `P` and never aborts on a state with `P` runs to
the end. -/
theorem forRange_total {α β : Type} (P : α → Prop) (body : β → α → Except Err α)
    (ds : List β) (h : ∀ d, d ∈ ds → ∀ a, P a → ∃ a', body d a = .ok a' ∧ P a') :
    ∀ a, P a → ∃ a', forRange body ds a = .ok a' ∧ P a' := by
  induction ds with
  | nil => intro a ha; exact ⟨a, rfl, ha⟩
  | cons d ds ih =>
    intro a ha
    obtain ⟨a1, h1, hP1⟩ := h d (List.mem_cons_self d ds) a ha
    obtain ⟨a2, h2, hP2⟩ := ih (fun e he => h e (List.mem_cons_of_mem d he)) a1 hP1
    exact ⟨a2, by simp [forRange, h1, h2], hP2⟩

/-- A loop over `ds ++ [d]` runs the loop over `ds` and then the body at `d`. -/
theorem forRange_append_single {α β : Type} (body : β → α → Except Err α) (ds : List β)
    (d : β) (a : α) :
    forRange body (ds ++ [d]) a =
      match forRange body ds a with
      | .error e => .error e
      | .ok a' => body d a' := by
  induction ds generalizing a with
  | nil =>
    simp only [List.nil_append, forRange]
    cases body d a <;> rfl
  | cons e ds ih =>
    simp only [List.cons_append, forRange]
    cases body e a with
    | error x => rfl
    | ok a1 => exact ih a1

/-! ## Painting: what a block of writes does to the map -/

/-- A loop paints what its rounds paint. -/
theorem paints_forLoop {α : Type} (Inv : α → Prop) (proj : α → List Nat)
    (W : Nat → Nat → Nat → Prop) (body : Nat → α → Except Err α) (n : Nat)
    (h : ∀ i, i < n → Paints Inv proj (W i) (body i)) :
    Paints Inv proj (fun j v => ∃ i, i < n ∧ W i j v) (forLoop body n) := by
  induction n with
  | zero =>
    intro a a' hI hF
    simp only [forLoop, Except.ok.injEq] at hF
    subst hF
    refine ⟨hI, rfl, fun j => ⟨?_, fun _ => rfl⟩⟩
    rintro ⟨v, i, hi, _⟩
    exact absurd hi (Nat.not_lt_zero i)
  | succ n ih =>
    intro a a' hI hF
    obtain ⟨a1, h1, h2⟩ := forLoop_succ_ok body n a a' hF
    obtain ⟨hI1, hlen1, hcell1⟩ := ih (fun i hi => h i (Nat.lt_succ_of_lt hi)) a a1 hI h1
    obtain ⟨hI2, hlen2, hcell2⟩ := h n (Nat.lt_succ_self n) a1 a' hI1 h2
    refine ⟨hI2, hlen2.trans hlen1, fun j => ⟨?_, ?_⟩⟩
    · rintro ⟨v, i, hi, hW⟩ hj
      by_cases hn : ∃ w, W n j w
      · obtain ⟨w, hw, hget⟩ := (hcell2 j).1 hn (hlen1 ▸ hj)
        exact ⟨w, ⟨n, Nat.lt_succ_self n, hw⟩, hget⟩
      · have hin : i < n := by
          rcases Nat.lt_succ_iff_lt_or_eq.mp hi with h' | h'
          · exact h'
          · subst h'; exact absurd ⟨v, hW⟩ hn
        obtain ⟨w, ⟨i', hi', hw⟩, hget⟩ := (hcell1 j).1 ⟨v, i, hin, hW⟩ hj
        exact ⟨w, ⟨i', Nat.lt_succ_of_lt hi', hw⟩, ((hcell2 j).2 hn).trans hget⟩
    · intro hno
      have hn : ¬ ∃ w, W n j w := fun ⟨w, hw⟩ => hno ⟨w, n, Nat.lt_succ_self n, hw⟩
      have hlt : ¬ ∃ w, ∃ i, i < n ∧ W i j w :=
        fun ⟨w, i, hi, hw⟩ => hno ⟨w, i, Nat.lt_succ_of_lt hi, hw⟩
      exact ((hcell2 j).2 hn).trans ((hcell1 j).2 hlt)

/-! ## The layout of the map -/

/-- The flat index of a cell of the mesh lies within the map. -/
theorem flat_lt {V : Type} (m : Mesh V) (ix iy iz : Nat) (hx : ix < m.Nx) (hy : iy < m.Ny)
    (hz : iz < m.Nz) : flat m ix iy iz < m.NCell := by
  unfold flat Mesh.NCell
  have h1 : iz * m.Ny + iy + 1 ≤ m.Nz * m.Ny := by
    have : (iz + 1) * m.Ny ≤ m.Nz * m.Ny := Nat.mul_le_mul_right _ hz
    rw [Nat.add_mul, Nat.one_mul] at this
    omega
  have h2 : (iz * m.Ny + iy + 1) * m.Nx ≤ m.Nz * m.Ny * m.Nx := Nat.mul_le_mul_right _ h1
  rw [Nat.add_mul, Nat.one_mul] at h2
  have h3 : m.Nx * m.Ny * m.Nz = m.Nz * m.Ny * m.Nx := by ring
  omega

/-- Two cells of the mesh with the same flat index are the same cell. -/
theorem flat_inj {V : Type} (m : Mesh V) (ix iy iz ix' iy' iz' : Nat) (hx : ix < m.Nx)
    (hx' : ix' < m.Nx) (hy : iy < m.Ny) (hy' : iy' < m.Ny)
    (h : flat m ix iy iz = flat m ix' iy' iz') : ix = ix' ∧ iy = iy' ∧ iz = iz' := by
  unfold flat at h
  have hxe : ix = ix' := by
    have := congrArg (· % m.Nx) h
    simpa [Nat.mul_add_mod, Nat.add_mod, Nat.mod_eq_of_lt hx, Nat.mod_eq_of_lt hx'] using this
  subst hxe
  have hpos : 0 < m.Nx := by omega
  have h2 : iz * m.Ny + iy = iz' * m.Ny + iy' :=
    Nat.eq_of_mul_eq_mul_right hpos (Nat.add_right_cancel h)
  have hye : iy = iy' := by
    have := congrArg (· % m.Ny) h2
    simpa [Nat.mul_add_mod, Nat.add_mod, Nat.mod_eq_of_lt hy, Nat.mod_eq_of_lt hy'] using this
  subst hye
  have hpos' : 0 < m.Ny := by omega
  exact ⟨rfl, rfl, Nat.eq_of_mul_eq_mul_right hpos' (Nat.add_right_cancel h2)⟩

/-! ## The rasterizer -/

/-- A write through the view made by `reshapeBytes` lands at the flat index of the cell. -/
theorem arrSet_reshape (l0 l : List Nat) (Nx Ny Nz : Nat) (arr : List (List SliceHdr))
    (h : reshapeBytes l0 Nx Ny Nz = .ok arr) (iz iy ix : Nat) (hz : iz < Nz) (hy : iy < Ny)
    (hx : ix < Nx) (v : Nat) :
    arrSet arr l iz iy ix v = .ok (l.set ((iz * Ny + iy) * Nx + ix) v) := by
  unfold reshapeBytes at h
  split at h
  · simp only [Except.ok.injEq] at h
    subst h
    simp [arrSet, List.getElem?_range hz, List.getElem?_range hy, hx]
  · cases h

/-- One round of the innermost loop of `render` paints its cell when the shape holds there. -/
theorem renderBody_paints {V : Type} (m : Mesh V) (l0 : List Nat) (arr : List (List SliceHdr))
    (harr : reshapeBytes l0 m.Nx m.Ny m.Nz = .ok arr) (id : Int) (s : Shape V)
    (iz iy ix : Nat) (hz : iz < m.Nz) (hy : iy < m.Ny) (hx : ix < m.Nx) :
    Paints (fun _ => True) (fun l => l)
      (fun j v => s (m.index2Coord ix iy iz) = true ∧ j = flat m ix iy iz ∧ v = toByte id)
      (fun l => if s (m.index2Coord ix iy iz) then arrSet arr l iz iy ix (toByte id)
        else .ok l) := by
  intro l l' _ hF
  by_cases hs : s (m.index2Coord ix iy iz) = true
  · simp only [hs, if_true, arrSet_reshape l0 l m.Nx m.Ny m.Nz arr harr iz iy ix hz hy hx,
      Except.ok.injEq] at hF
    subst hF
    refine ⟨trivial, List.length_set _ _ _, fun j => ⟨?_, ?_⟩⟩
    · rintro ⟨v, _, hj, _⟩ hlt
      subst hj
      exact ⟨toByte id, ⟨hs, rfl, rfl⟩, List.getElem?_set_self hlt⟩
    · intro hno
      have hne : (iz * m.Ny + iy) * m.Nx + ix ≠ j := by
        intro he
        exact hno ⟨toByte id, hs, he.symm, rfl⟩
      exact List.getElem?_set_ne hne
  · simp only [hs, Bool.false_eq_true, if_false, Except.ok.injEq] at hF
    subst hF
    exact ⟨trivial, rfl, fun j => ⟨fun ⟨_, h, _⟩ => absurd h hs, fun _ => rfl⟩⟩

/-- The loops of `render` paint `toByte id` on the cells whose centre is in the shape. -/
theorem renderLoops_paints {V : Type} (m : Mesh V) (l0 : List Nat) (arr : List (List SliceHdr))
    (harr : reshapeBytes l0 m.Nx m.Ny m.Nz = .ok arr) (id : Int) (s : Shape V) :
    Paints (fun _ => True) (fun l => l) (renderW m id s) (renderLoops m arr id s) :=
  paints_forLoop _ _
    (fun iz j v => ∃ iy, iy < m.Ny ∧ ∃ ix, ix < m.Nx ∧
      (s (m.index2Coord ix iy iz) = true ∧ j = flat m ix iy iz ∧ v = toByte id)) _ m.Nz
    (fun iz hz => paints_forLoop _ _
      (fun iy j v => ∃ ix, ix < m.Nx ∧
        (s (m.index2Coord ix iy iz) = true ∧ j = flat m ix iy iz ∧ v = toByte id)) _ m.Ny
      (fun iy hy => paints_forLoop _ _
        (fun ix j v => s (m.index2Coord ix iy iz) = true ∧ j = flat m ix iy iz ∧ v = toByte id)
        _ m.Nx
        (fun ix hx => renderBody_paints m l0 arr harr id s iz iy ix hz hy hx)))

/-- The loops of `render` never abort on the view made by `reshapeBytes`. -/
theorem renderLoops_total {V : Type} (m : Mesh V) (l0 : List Nat) (arr : List (List SliceHdr))
    (harr : reshapeBytes l0 m.Nx m.Ny m.Nz = .ok arr) (id : Int) (s : Shape V) (l : List Nat) :
    ∃ l', renderLoops m arr id s l = .ok l' := by
  have h := forLoop_total (fun _ : List Nat => True) (fun iz l =>
    forLoop (fun iy l =>
      forLoop (fun ix l =>
        if s (m.index2Coord ix iy iz) then arrSet arr l iz iy ix (toByte id) else .ok l)
        m.Nx l)
      m.Ny l) m.Nz
    (fun iz hz => forLoop_total _ _ m.Ny
      (fun iy hy => forLoop_total _ _ m.Nx
        (fun ix hx a _ => by
          by_cases hs : s (m.index2Coord ix iy iz) = true
          · exact ⟨a.set ((iz * m.Ny + iy) * m.Nx + ix) (toByte id), by simp only [hs, if_true,
              arrSet_reshape l0 a m.Nx m.Ny m.Nz arr harr iz iy ix hz hy hx], trivial⟩
          · exact ⟨a, by simp only [hs, Bool.false_eq_true, if_false], trivial⟩))) l trivial
  obtain ⟨l', hl', _⟩ := h
  exact ⟨l', hl'⟩

/-- What `render` does on a map of the length of the mesh: it returns, keeps the history and
the length, and changes the map as `renderW` says. -/
theorem render_paints {V : Type} (m : Mesh V) (r : Regions V) (id : Int) (s : Shape V)
    (hlen : r.gpuCache.length = m.NCell) :
    ∃ l', render m r id s = .ok ⟨l', r.deflist⟩ ∧ l'.length = m.NCell ∧
      ∀ j, ((∃ v, renderW m id s j v) → j < m.NCell →
              ∃ v, renderW m id s j v ∧ l'[j]? = some v) ∧
           ((¬ ∃ v, renderW m id s j v) → l'[j]? = r.gpuCache[j]?) := by
  have hlen' : m.Nx * m.Ny * m.Nz = r.gpuCache.length := hlen.symm
  obtain ⟨arr, harr⟩ : ∃ arr, reshapeBytes r.gpuCache m.Nx m.Ny m.Nz = .ok arr :=
    ⟨_, if_pos hlen'⟩
  obtain ⟨l', hl'⟩ := renderLoops_total m r.gpuCache arr harr id s r.gpuCache
  obtain ⟨_, hlen2, hcell⟩ := renderLoops_paints m r.gpuCache arr harr id s r.gpuCache l'
    trivial hl'
  have hlen3 : m.NCell = l'.length := hlen ▸ hlen2.symm
  refine ⟨l', ?_, hlen2.trans hlen, fun j => ⟨fun hw hj => (hcell j).1 hw (hlen ▸ hj),
    (hcell j).2⟩⟩
  simp only [render, HostList, Download, hlen, if_true, harr, hl', Upload, hlen3]

/-- What `render` does, cell by cell: a cell whose centre is in the shape holds `toByte id`
afterwards, every other cell holds what it held. -/
theorem render_cell {V : Type} (m : Mesh V) (r : Regions V) (id : Int) (s : Shape V)
    (hlen : r.gpuCache.length = m.NCell) :
    ∃ l', render m r id s = .ok ⟨l', r.deflist⟩ ∧ l'.length = m.NCell ∧
      ∀ ix iy iz, ix < m.Nx → iy < m.Ny → iz < m.Nz →
        l'[flat m ix iy iz]? =
          if s (m.index2Coord ix iy iz) then some (toByte id)
          else r.gpuCache[flat m ix iy iz]? := by
  obtain ⟨l', hr, hl, hcell⟩ := render_paints m r id s hlen
  refine ⟨l', hr, hl, fun ix iy iz hx hy hz => ?_⟩
  by_cases hs : s (m.index2Coord ix iy iz) = true
  · obtain ⟨v, ⟨_, _, _, _, _, _, _, _, hv⟩, hget⟩ :=
      (hcell (flat m ix iy iz)).1 ⟨toByte id, iz, hz, iy, hy, ix, hx, hs, rfl, rfl⟩
        (flat_lt m ix iy iz hx hy hz)
    rw [hget, hv, if_pos hs]
  · rw [if_neg hs]
    refine (hcell (flat m ix iy iz)).2 ?_
    rintro ⟨v, iz', hz', iy', hy', ix', hx', hs', hj, _⟩
    obtain ⟨h1, h2, h3⟩ := flat_inj m ix iy iz ix' iy' iz' hx hx' hy hy' hj
    subst h1 h2 h3
    exact hs hs'

/-! ## Validation of region ids -/

/-- A region id between 0 and 255 is its own byte. -/
theorem toByte_of_valid (id : Int) (h0 : 0 ≤ id) (h255 : id ≤ 255) : toByte id = id.toNat := by
  unfold toByte
  rw [Int.emod_eq_of_lt h0 (by omega)]

/-- On a configured mesh `defRegionId` accepts exactly the ids from 0 up to `NREGION`. -/
theorem defRegionId_ok_iff {V : Type} (m : Mesh V) (hset : m.isSet = true) (id : Int) :
    defRegionId m id = .ok () ↔ 0 ≤ id ∧ id ≤ 256 := by
  unfold defRegionId checkMesh NREGION
  by_cases h : id < 0 ∨ id > 256
  · have : (decide (id < 0) || decide (id > 256)) = true := by simpa using h
    simp only [this, if_true]
    constructor
    · intro h'; cases h'
    · intro h'; omega
  · have : (decide (id < 0) || decide (id > 256)) = false := by
      simpa using h
    simp only [this, hset, if_true, Bool.false_eq_true, if_false, true_iff]
    omega

/-- On a configured mesh `defRegionId` accepts the ids from 0 to 255. -/
theorem defRegionId_valid {V : Type} (m : Mesh V) (hset : m.isSet = true) (id : Int)
    (h0 : 0 ≤ id) (h255 : id ≤ 255) : defRegionId m id = .ok () :=
  (defRegionId_ok_iff m hset id).2 ⟨h0, by omega⟩

/-- Claim C1, evaluated on the code: on a configured mesh the id 256, which lies outside
[0,255], passes `defRegionId`; `DefRegion` with it succeeds and paints byte 0, the byte of
region 0, over a map of ones. -/
theorem C1_defRegionId_accepts_256 :
    defRegionId (gridMesh 2 1 1) 256 = .ok () ∧
    defRegionId (gridMesh 2 1 1) 257 = .error .fatal ∧
    mapOf (DefRegion (gridMesh 2 1 1) ⟨[1, 1], []⟩ 256 (fun _ => true)) = some [0, 0] :=
  ⟨rfl, rfl, by decide⟩

/-! ## Single-cell writes -/

/-- Claim C2, evaluated on the code: on a 2x2x2 mesh `DefRegionCell(5, 1, 0, 0)` writes flat
index 4, the cell (0,0,1), and leaves flat index (0*2+0)*2+1 = 1 alone, whereas
`SetCell(1, 0, 0, 5)` writes flat index 1; on a 4x4x1 mesh `DefRegionCell(5, 1, 0, 0)`
aborts although the cell (1,0,0) is within the mesh. -/
theorem C2_DefRegionCell_swaps_x_and_z :
    mapOf (DefRegionCell (gridMesh 2 2 2) ⟨NewBytes 8, []⟩ 5 1 0 0)
      = some [0, 0, 0, 0, 5, 0, 0, 0] ∧
    mapOf (SetCell (gridMesh 2 2 2) ⟨NewBytes 8, []⟩ 1 0 0 5)
      = some [0, 5, 0, 0, 0, 0, 0, 0] ∧
    mapOf (DefRegionCell (gridMesh 4 4 1) ⟨NewBytes 16, []⟩ 5 1 0 0) = none ∧
    mapOf (SetCell (gridMesh 4 4 1) ⟨NewBytes 16, []⟩ 1 0 0 5)
      = some [0, 5, 0, 0, 0, 0, 0, 0, 0, 0, 0, 0, 0, 0, 0, 0] := by
  decide

/-! ## The rasterizer, as claimed -/

/-- Claim C3: on a map of length Nx*Ny*Nz, for an id in [0,255] and any shape, `render`
returns, and afterwards a cell holds the id if the shape is true at the centre of the cell
and holds its previous value otherwise. -/
theorem C3_render_postcondition {V : Type} (m : Mesh V) (r : Regions V) (id : Int)
    (s : Shape V) (hlen : r.gpuCache.length = m.Nx * m.Ny * m.Nz) (h0 : 0 ≤ id)
    (h255 : id ≤ 255) :
    ∃ r', render m r id s = .ok r' ∧ r'.gpuCache.length = m.Nx * m.Ny * m.Nz ∧
      ∀ ix iy iz : Nat, ix < m.Nx → iy < m.Ny → iz < m.Nz →
        (s (m.index2Coord ix iy iz) = true →
          r'.gpuCache[(iz * m.Ny + iy) * m.Nx + ix]? = some id.toNat) ∧
        (s (m.index2Coord ix iy iz) = false →
          r'.gpuCache[(iz * m.Ny + iy) * m.Nx + ix]? =
            r.gpuCache[(iz * m.Ny + iy) * m.Nx + ix]?) := by
  obtain ⟨l', hr, hl, hcell⟩ := render_cell m r id s hlen
  refine ⟨_, hr, hl, fun ix iy iz hx hy hz => ⟨fun hs => ?_, fun hs => ?_⟩⟩
  · have := hcell ix iy iz hx hy hz
    rw [if_pos hs, toByte_of_valid id h0 h255] at this
    exact this
  · have := hcell ix iy iz hx hy hz
    rw [hs] at this
    exact this

/-- The rasterizer at work: painting id 7 on the cells with x < 1 of a 2x2x1 map. -/
theorem C3_render_postcondition_witness :
    ∃ r', render (gridMesh 2 2 1) ⟨[1, 2, 3, 4], []⟩ 7 (fun c => decide (c.1 < 1)) = .ok r' ∧
      r'.gpuCache.length = 2 * 2 * 1 ∧
      ∀ ix iy iz : Nat, ix < 2 → iy < 2 → iz < 1 →
        ((fun c : Int × Int × Int => decide (c.1 < 1)) ((ix : Int), (iy : Int), (iz : Int))
            = true →
          r'.gpuCache[(iz * 2 + iy) * 2 + ix]? = some (7 : Int).toNat) ∧
        ((fun c : Int × Int × Int => decide (c.1 < 1)) ((ix : Int), (iy : Int), (iz : Int))
            = false →
          r'.gpuCache[(iz * 2 + iy) * 2 + ix]? =
            ([1, 2, 3, 4] : List Nat)[(iz * 2 + iy) * 2 + ix]?) :=
  C3_render_postcondition (gridMesh 2 2 1) ⟨[1, 2, 3, 4], []⟩ 7 (fun c => decide (c.1 < 1))
    (by decide) (by decide) (by decide)

/-! ## Definitions of regions -/

/-- What `DefRegion` does with an accepted id on a map of the length of the mesh. -/
theorem DefRegion_cell {V : Type} (m : Mesh V) (r : Regions V) (id : Int) (s : Shape V)
    (hid : defRegionId m id = .ok ()) (hlen : r.gpuCache.length = m.NCell) :
    ∃ l', DefRegion m r id s = .ok ⟨l', r.deflist ++ [⟨id, s⟩]⟩ ∧ l'.length = m.NCell ∧
      ∀ ix iy iz, ix < m.Nx → iy < m.Ny → iz < m.Nz →
        l'[flat m ix iy iz]? =
          if s (m.index2Coord ix iy iz) then some (toByte id)
          else r.gpuCache[flat m ix iy iz]? := by
  obtain ⟨l', hr, hl, hcell⟩ := render_cell m r id s hlen
  exact ⟨l', by simp only [DefRegion, hid, hr], hl, hcell⟩

/-- A sequence of definitions with ids in [0,255] runs to the end and keeps the length. -/
theorem defRegions_total {V : Type} (m : Mesh V) (hset : m.isSet = true)
    (ds : List (regionHist V)) (hds : ∀ d, d ∈ ds → validEntry d) (r : Regions V)
    (hlen : r.gpuCache.length = m.NCell) :
    ∃ r', defRegions m ds r = .ok r' ∧ r'.gpuCache.length = m.NCell := by
  refine forRange_total (fun r : Regions V => r.gpuCache.length = m.NCell) _ ds ?_ r hlen
  intro d hd a ha
  obtain ⟨l', h1, h2, _⟩ := DefRegion_cell m a d.region d.shape
    (defRegionId_valid m hset d.region (hds d hd).1 (hds d hd).2) ha
  exact ⟨_, h1, h2⟩

/-- Claim C4: last writer wins. From any map of the length of the mesh, a sequence of
definitions (ids in [0,255]) that holds A with id 1 and ends with B with id 2 returns and
leaves id 2 in every cell whose centre is in both A and B; and the universe with id 0
followed by a shape s with id 1 leaves 1 exactly where s holds and 0 elsewhere. -/
theorem C4_last_writer_wins {V : Type} (m : Mesh V) (hset : m.isSet = true) (r : Regions V)
    (hlen : r.gpuCache.length = m.Nx * m.Ny * m.Nz) (pre mid : List (regionHist V))
    (hpre : ∀ d, d ∈ pre → validEntry d) (hmid : ∀ d, d ∈ mid → validEntry d)
    (A B s : Shape V) :
    (∃ r', defRegions m (pre ++ [⟨1, A⟩] ++ mid ++ [⟨2, B⟩]) r = .ok r' ∧
      ∀ ix iy iz : Nat, ix < m.Nx → iy < m.Ny → iz < m.Nz →
        A (m.index2Coord ix iy iz) = true → B (m.index2Coord ix iy iz) = true →
          r'.gpuCache[(iz * m.Ny + iy) * m.Nx + ix]? = some 2) ∧
    (∃ r', defRegions m [⟨0, fun _ => true⟩, ⟨1, s⟩] r = .ok r' ∧
      ∀ ix iy iz : Nat, ix < m.Nx → iy < m.Ny → iz < m.Nz →
        r'.gpuCache[(iz * m.Ny + iy) * m.Nx + ix]? =
          some (if s (m.index2Coord ix iy iz) then 1 else 0)) := by
  constructor
  · have hall : ∀ d, d ∈ pre ++ [⟨1, A⟩] ++ mid → validEntry d := by
      intro d hd
      simp only [List.mem_append, List.mem_singleton] at hd
      rcases hd with (hd | hd) | hd
      · exact hpre d hd
      · subst hd; exact ⟨show (0 : Int) ≤ 1 by decide, show (1 : Int) ≤ 255 by decide⟩
      · exact hmid d hd
    obtain ⟨r1, h1, hl1⟩ := defRegions_total m hset _ hall r hlen
    obtain ⟨l', h2, _, hcell⟩ := DefRegion_cell m r1 2 B
      (defRegionId_valid m hset 2 (by decide) (by decide)) hl1
    refine ⟨⟨l', r1.deflist ++ [⟨2, B⟩]⟩, ?_, fun ix iy iz hx hy hz _ hB => ?_⟩
    · unfold defRegions at h1 ⊢
      rw [forRange_append_single, h1]
      exact h2
    · have := hcell ix iy iz hx hy hz
      rw [if_pos hB] at this
      exact this
  · obtain ⟨l1, h1, hl1, hcell1⟩ := DefRegion_cell m r 0 (fun _ => true)
      (defRegionId_valid m hset 0 (by decide) (by decide)) hlen
    obtain ⟨l2, h2, _, hcell2⟩ := DefRegion_cell m ⟨l1, r.deflist ++ [⟨0, fun _ => true⟩]⟩ 1 s
      (defRegionId_valid m hset 1 (by decide) (by decide)) hl1
    refine ⟨⟨l2, r.deflist ++ [⟨0, fun _ => true⟩] ++ [⟨1, s⟩]⟩, ?_,
      fun ix iy iz hx hy hz => ?_⟩
    · simp only [defRegions, forRange, h1, h2]
    · have e2 := hcell2 ix iy iz hx hy hz
      have e1 := hcell1 ix iy iz hx hy hz
      simp only [if_true] at e1
      by_cases hs : s (m.index2Coord ix iy iz) = true
      · rw [if_pos hs] at e2 ⊢
        exact e2
      · rw [if_neg hs] at e2 ⊢
        exact e2.trans e1

/-- Last writer wins on a 2x1x1 mesh: A and B both hold in cell 0, one definition lies
between them. -/
theorem C4_last_writer_wins_witness :
    (∃ r', defRegions (gridMesh 2 1 1)
        ([] ++ [⟨1, fun c => decide (c.1 < 1)⟩] ++ [⟨3, fun c => decide (1 ≤ c.1)⟩]
          ++ [⟨2, fun c => decide (c.1 < 1)⟩]) ⟨[9, 9], []⟩ = .ok r' ∧
      ∀ ix iy iz : Nat, ix < 2 → iy < 1 → iz < 1 →
        (fun c : Int × Int × Int => decide (c.1 < 1)) ((ix : Int), (iy : Int), (iz : Int))
          = true →
        (fun c : Int × Int × Int => decide (c.1 < 1)) ((ix : Int), (iy : Int), (iz : Int))
          = true →
          r'.gpuCache[(iz * 1 + iy) * 2 + ix]? = some 2) ∧
    (∃ r', defRegions (gridMesh 2 1 1) [⟨0, fun _ => true⟩, ⟨1, fun c => decide (c.1 < 1)⟩]
        ⟨[9, 9], []⟩ = .ok r' ∧
      ∀ ix iy iz : Nat, ix < 2 → iy < 1 → iz < 1 →
        r'.gpuCache[(iz * 1 + iy) * 2 + ix]? =
          some (if (fun c : Int × Int × Int => decide (c.1 < 1))
            ((ix : Int), (iy : Int), (iz : Int)) then 1 else 0)) :=
  C4_last_writer_wins (gridMesh 2 1 1) rfl ⟨[9, 9], []⟩ (by decide) []
    [⟨3, fun c => decide (1 ≤ c.1)⟩] (by simp)
    (by intro d hd; simp only [List.mem_singleton] at hd; subst hd
        exact ⟨show (0 : Int) ≤ 3 by decide, show (3 : Int) ≤ 255 by decide⟩)
    (fun c => decide (c.1 < 1)) (fun c => decide (c.1 < 1)) (fun c => decide (c.1 < 1))

/-! ## Resize -/

/-- The history plays no part in `render`: it is handed through. -/
theorem render_deflist {V : Type} (m : Mesh V) (l : List Nat) (H : List (regionHist V))
    (id : Int) (s : Shape V) :
    render m ⟨l, H⟩ id s =
      match render m ⟨l, []⟩ id s with
      | .error e => .error e
      | .ok r => .ok ⟨r.gpuCache, H⟩ := by
  simp only [render, HostList]
  cases Download l m.NCell with
  | error e => rfl
  | ok l1 =>
    simp only []
    cases reshapeBytes l1 m.Nx m.Ny m.Nz with
    | error e => rfl
    | ok arr =>
      simp only []
      cases renderLoops m arr id s l1 with
      | error e => rfl
      | ok l2 =>
        simp only []
        cases Upload l l2 with
        | error e => rfl
        | ok g => rfl

/-- Once the painting of a history has failed it stays failed. -/
theorem paintFold_error {V : Type} (m : Mesh V) (ds : List (regionHist V)) (e : Err) :
    ds.foldl (fun acc d =>
      match acc with
      | .error e => .error e
      | .ok l =>
        match render m ⟨l, []⟩ d.region d.shape with
        | .error e => .error e
        | .ok r => .ok r.gpuCache) (.error e : Except Err (List Nat)) = .error e := by
  induction ds with
  | nil => rfl
  | cons d ds ih => simpa only [List.foldl_cons] using ih

/-- The replay loop of `resize` on a map of the length of the mesh: it returns, keeps the
history, and its map is the painting of the entries, in order, onto the map it starts from. -/
theorem replay_spec {V : Type} (m : Mesh V) (H : List (regionHist V))
    (ds : List (regionHist V)) :
    ∀ l : List Nat, l.length = m.NCell →
      ∃ g, forRange (fun d r => render m r d.region d.shape) ds ⟨l, H⟩ = .ok ⟨g, H⟩ ∧
        g.length = m.NCell ∧
        ds.foldl (fun acc d =>
          match acc with
          | .error e => .error e
          | .ok l =>
            match render m ⟨l, []⟩ d.region d.shape with
            | .error e => .error e
            | .ok r => .ok r.gpuCache) (.ok l : Except Err (List Nat)) = .ok g := by
  induction ds with
  | nil => intro l hl; exact ⟨l, rfl, hl, rfl⟩
  | cons d ds ih =>
    intro l hl
    obtain ⟨l1, h1, hl1, _⟩ := render_paints m ⟨l, []⟩ d.region d.shape hl
    obtain ⟨g, h2, hg, h3⟩ := ih l1 hl1
    refine ⟨g, ?_, hg, ?_⟩
    · simp only [forRange, render_deflist m l H, h1, h2]
    · simp only [List.foldl_cons, h1, h3]

/-- On any state `resize` returns, keeps the history, and leaves the painting of the history
onto the all-zero map of the new mesh. -/
theorem resize_spec {V : Type} (m : Mesh V) (r : Regions V) :
    ∃ g, resize m r = .ok ⟨g, r.deflist⟩ ∧ g.length = m.NCell ∧
      paintHistory m r.deflist = .ok g := by
  obtain ⟨g, h1, h2, h3⟩ := replay_spec m r.deflist r.deflist (NewBytes (m.Nx * m.Ny * m.Nz))
    (by simp [NewBytes, Mesh.NCell])
  exact ⟨g, h1, h2, h3⟩

/-- Claim C5: resize invariance. For every state (any history, any map) and every non-empty
sequence of meshes ending in S, resizing once per mesh in turn returns, keeps the history,
and leaves the map that painting the entries of the history, in their order, onto the
all-zero map of size S gives; so the earlier sizes and their number play no part. -/
theorem C5_resize_invariance {V : Type} (r : Regions V) (ms : List (Mesh V)) (S : Mesh V) :
    ∃ g, resizes (ms ++ [S]) r = .ok ⟨g, r.deflist⟩ ∧ paintHistory S r.deflist = .ok g := by
  obtain ⟨r1, h1, hd1⟩ := forRange_total (fun a : Regions V => a.deflist = r.deflist)
    (fun m r => resize m r) ms (fun m _ a ha => by
      obtain ⟨g, hg, _, _⟩ := resize_spec m a
      exact ⟨⟨g, a.deflist⟩, hg, ha⟩) r rfl
  obtain ⟨g, hg, _, hp⟩ := resize_spec S r1
  rw [hd1] at hg hp
  refine ⟨g, ?_, hp⟩
  unfold resizes
  rw [forRange_append_single, h1]
  exact hg

/-- The method `DefRegionCell` keeps the history. -/
theorem DefRegionCell_deflist {V : Type} (m : Mesh V) (r r' : Regions V) (id : Int)
    (x y z : Int) (h : DefRegionCell m r id x y z = .ok r') : r'.deflist = r.deflist := by
  unfold DefRegionCell at h
  cases h1 : defRegionId m id with
  | error e => rw [h1] at h; cases h
  | ok u =>
    rw [h1] at h
    simp only [] at h
    cases h2 : Index m z y x with
    | error e => rw [h2] at h; cases h
    | ok i =>
      rw [h2] at h
      simp only [] at h
      cases h3 : BytesSet r.gpuCache i (toByte id) with
      | error e => rw [h3] at h; cases h
      | ok g =>
        rw [h3] at h
        simp only [Except.ok.injEq] at h
        subst h
        rfl

/-- Claim C6: a call of `DefRegionCell` that goes through leaves the history as it was, and
a following resize, to any mesh, returns the very map the resize returns without the call. -/
theorem C6_DefRegionCell_not_replayed {V : Type} (m : Mesh V) (r r' : Regions V) (id : Int)
    (x y z : Int) (h : DefRegionCell m r id x y z = .ok r') :
    r'.deflist = r.deflist ∧
    ∀ m' : Mesh V, ∃ g, resize m' r' = .ok ⟨g, r.deflist⟩ ∧ resize m' r = .ok ⟨g, r.deflist⟩ := by
  have hd := DefRegionCell_deflist m r r' id x y z h
  refine ⟨hd, fun m' => ?_⟩
  obtain ⟨g, hg, _, _⟩ := resize_spec m' r
  refine ⟨g, ?_, hg⟩
  have e : resize m' r' = resize m' r := by simp only [resize, hd]
  rw [e]
  exact hg

/-- The scenario of the spec: on a 4x4x1 map without definitions `DefRegionCell(5,0,0,0)`
makes the cell (0,0,0) read 5, the history stays empty, and after a resize to 8x8x1 the
cell reads 0, as it does without the call. -/
theorem C6_DefRegionCell_not_replayed_witness :
    mapOf (DefRegionCell (gridMesh 4 4 1) ⟨NewBytes 16, []⟩ 5 0 0 0)
      = some (5 :: List.replicate 15 0) ∧
    mapOf (resize (gridMesh 8 8 1) ⟨5 :: List.replicate 15 0, []⟩) = some (List.replicate 64 0) ∧
    ((⟨5 :: List.replicate 15 0, []⟩ : Regions (Int × Int × Int)).deflist
        = (⟨NewBytes 16, []⟩ : Regions (Int × Int × Int)).deflist ∧
      ∀ m' : Mesh (Int × Int × Int), ∃ g,
        resize m' ⟨5 :: List.replicate 15 0, []⟩
          = .ok ⟨g, (⟨NewBytes 16, []⟩ : Regions (Int × Int × Int)).deflist⟩ ∧
        resize m' ⟨NewBytes 16, []⟩
          = .ok ⟨g, (⟨NewBytes 16, []⟩ : Regions (Int × Int × Int)).deflist⟩) :=
  ⟨by decide, by decide,
    C6_DefRegionCell_not_replayed (gridMesh 4 4 1) ⟨NewBytes 16, []⟩
      ⟨5 :: List.replicate 15 0, []⟩ 5 0 0 0 rfl⟩

/-! ## The scan of the history -/

/-- The scan below index `n` only looks at the first `n` entries. -/
theorem getLoop_append {V : Type} (H X : List (regionHist V)) (R : V) (n : Nat)
    (hn : n ≤ H.length) : getLoop (H ++ X) R n = getLoop H R n := by
  induction n with
  | zero => rfl
  | succ n ih =>
    have hlt : n < H.length := hn
    simp only [getLoop, List.getElem?_append_left hlt, ih (Nat.le_of_lt hlt)]

/-- The scan of a history with one more entry looks at that entry first. -/
theorem get_snoc {V : Type} (g g' : List Nat) (H : List (regionHist V)) (e : regionHist V)
    (R : V) :
    get ⟨g, H ++ [e]⟩ R = if e.shape R then e.region else get ⟨g', H⟩ R := by
  have hlast : (H ++ [e])[H.length]? = some e := by
    rw [List.getElem?_append_right (Nat.le_refl _)]
    simp
  simp only [get, List.length_append, List.length_singleton, getLoop, hlast,
    getLoop_append H [e] R H.length (Nat.le_refl _)]

/-- The scan returns 0 when no shape of the history contains the point. -/
theorem get_none {V : Type} (g : List Nat) (H : List (regionHist V)) (R : V)
    (h : ∀ d, d ∈ H → d.shape R = false) : get ⟨g, H⟩ R = 0 := by
  induction H using List.reverseRecOn with
  | nil => rfl
  | append_singleton H e ih =>
    rw [get_snoc g g H e R, h e (by simp)]
    simpa using ih (fun d hd => h d (by simp [hd]))

/-- The scan returns the id of the last entry whose shape contains the point. -/
theorem get_last {V : Type} (g : List Nat) (pre post : List (regionHist V))
    (d : regionHist V) (R : V) (hd : d.shape R = true)
    (hpost : ∀ e, e ∈ post → e.shape R = false) : get ⟨g, pre ++ d :: post⟩ R = d.region := by
  induction post using List.reverseRecOn with
  | nil =>
    rw [get_snoc g g pre d R, hd]
    rfl
  | append_singleton post e ih =>
    have e1 : pre ++ d :: (post ++ [e]) = (pre ++ d :: post) ++ [e] := by simp
    rw [e1, get_snoc g g (pre ++ d :: post) e R, hpost e (by simp)]
    simpa using ih (fun x hx => hpost x (by simp [hx]))

/-- Claim C7: for every history and every coordinate, `get` returns 0 when no shape of the
history contains the coordinate (so for the empty history), and otherwise the region id of
the entry appended last among those whose shape contains it. -/
theorem C7_get_most_recent {V : Type} (r : Regions V) (R : V) :
    ((∀ d, d ∈ r.deflist → d.shape R = false) → get r R = 0) ∧
    (∀ (pre post : List (regionHist V)) (d : regionHist V),
      r.deflist = pre ++ d :: post → d.shape R = true →
      (∀ e, e ∈ post → e.shape R = false) → get r R = d.region) ∧
    (r.deflist = [] → get r R = 0) := by
  obtain ⟨g, H⟩ := r
  refine ⟨fun h => get_none g H R h, fun pre post d hH hd hpost => ?_, fun h => ?_⟩
  · simp only at hH
    subst hH
    exact get_last g pre post d R hd hpost
  · simp only at h
    subst h
    rfl

/-- The scan on a history of three entries, at a point in the first two shapes only: the
second entry wins; and on a point outside all shapes the result is 0. -/
theorem C7_get_most_recent_witness :
    get (⟨[], [⟨4, fun c => decide (c.1 < 3)⟩, ⟨5, fun c => decide (c.1 < 2)⟩,
        ⟨6, fun c => decide (c.1 < 1)⟩]⟩ : Regions (Int × Int × Int)) (1, 0, 0) = 5 ∧
    get (⟨[], [⟨4, fun c => decide (c.1 < 3)⟩, ⟨5, fun c => decide (c.1 < 2)⟩,
        ⟨6, fun c => decide (c.1 < 1)⟩]⟩ : Regions (Int × Int × Int)) (7, 0, 0) = 0 :=
  ⟨(C7_get_most_recent (⟨[], [⟨4, fun c => decide (c.1 < 3)⟩, ⟨5, fun c => decide (c.1 < 2)⟩,
        ⟨6, fun c => decide (c.1 < 1)⟩]⟩ : Regions (Int × Int × Int)) (1, 0, 0)).2.1
      [⟨4, fun c => decide (c.1 < 3)⟩] [⟨6, fun c => decide (c.1 < 1)⟩]
      ⟨5, fun c => decide (c.1 < 2)⟩ rfl (by decide)
      (by intro e he; simp only [List.mem_singleton] at he; subst he; decide),
   (C7_get_most_recent (⟨[], [⟨4, fun c => decide (c.1 < 3)⟩, ⟨5, fun c => decide (c.1 < 2)⟩,
        ⟨6, fun c => decide (c.1 < 1)⟩]⟩ : Regions (Int × Int × Int)) (7, 0, 0)).1
      (by intro d hd
          simp only [List.mem_cons, List.mem_singleton, List.not_mem_nil, or_false] at hd
          rcases hd with hd | hd | hd <;> subst hd <;> decide)⟩

/-! ## Idempotence -/

/-- Claim C8: on a configured mesh, for every map of the length of the mesh, every id in
[0,255] and every shape, two calls of `DefRegion(id, s)` in a row both return, and the map
after the second is the map after the first. -/
theorem C8_DefRegion_idempotent {V : Type} (m : Mesh V) (hset : m.isSet = true)
    (r : Regions V) (hlen : r.gpuCache.length = m.Nx * m.Ny * m.Nz) (id : Int) (h0 : 0 ≤ id)
    (h255 : id ≤ 255) (s : Shape V) :
    ∃ r1 r2, DefRegion m r id s = .ok r1 ∧ DefRegion m r1 id s = .ok r2 ∧
      r2.gpuCache = r1.gpuCache := by
  have hid := defRegionId_valid m hset id h0 h255
  obtain ⟨l1, hr1, hl1, hc1⟩ := render_paints m r id s hlen
  obtain ⟨l2, hr2, hl2, hc2⟩ := render_paints m ⟨l1, r.deflist ++ [⟨id, s⟩]⟩ id s hl1
  refine ⟨⟨l1, r.deflist ++ [⟨id, s⟩]⟩, ⟨l2, r.deflist ++ [⟨id, s⟩] ++ [⟨id, s⟩]⟩, ?_, ?_, ?_⟩
  · simp only [DefRegion, hid, hr1]
  · simp only [DefRegion, hid, hr2]
  · show l2 = l1
    apply List.ext_getElem?
    intro j
    by_cases hw : ∃ v, renderW m id s j v
    · by_cases hj : j < m.NCell
      · obtain ⟨v1, ⟨_, _, _, _, _, _, _, _, e1⟩, g1⟩ := (hc1 j).1 hw hj
        obtain ⟨v2, ⟨_, _, _, _, _, _, _, _, e2⟩, g2⟩ := (hc2 j).1 hw hj
        rw [g1, g2, e1, e2]
      · have hj' : m.NCell ≤ j := Nat.le_of_not_lt hj
        rw [List.getElem?_eq_none (hl2 ▸ hj'), List.getElem?_eq_none (hl1 ▸ hj')]
    · exact (hc2 j).2 hw

/-- Idempotence on a 2x1x1 mesh: painting id 3 on the cell with x < 1 twice. -/
theorem C8_DefRegion_idempotent_witness :
    ∃ r1 r2, DefRegion (gridMesh 2 1 1) ⟨[8, 9], []⟩ 3 (fun c => decide (c.1 < 1)) = .ok r1 ∧
      DefRegion (gridMesh 2 1 1) r1 3 (fun c => decide (c.1 < 1)) = .ok r2 ∧
      r2.gpuCache = r1.gpuCache :=
  C8_DefRegion_idempotent (gridMesh 2 1 1) rfl ⟨[8, 9], []⟩ (by decide) 3 (by decide)
    (by decide) (fun c => decide (c.1 < 1))

/-! ## The shift -/

/-- The flat index that `Index` gives to a cell of the mesh. -/
theorem Index_ok {V : Type} (m : Mesh V) (ix iy iz : Nat) (hx : ix < m.Nx) (hy : iy < m.Ny)
    (hz : iz < m.Nz) : Index m ix iy iz = .ok (flat m ix iy iz) := by
  have hc : ((ix : Int) < 0 ∨ (ix : Int) ≥ m.Nx ∨ (iy : Int) < 0 ∨ (iy : Int) ≥ m.Ny ∨
      (iz : Int) < 0 ∨ (iz : Int) ≥ m.Nz) ↔ False := by
    constructor
    · intro h; omega
    · intro h; exact h.elim
  have hv : (((iz : Int) * m.Ny + iy) * m.Nx + ix).toNat = flat m ix iy iz := by
    have : ((iz : Int) * m.Ny + iy) * m.Nx + ix = ((flat m ix iy iz : Nat) : Int) := by
      unfold flat; push_cast; ring
    rw [this, Int.toNat_natCast]
  unfold Index
  simp only [Bool.or_eq_true, decide_eq_true_eq, hv]
  rw [if_neg]
  intro h
  omega

/-- When `Index` returns, the cell is a cell of the mesh and the result is its flat index. -/
theorem Index_eq_ok {V : Type} (m : Mesh V) (ix iy iz : Int) (j : Nat)
    (h : Index m ix iy iz = .ok j) :
    ∃ x y z : Nat, x < m.Nx ∧ y < m.Ny ∧ z < m.Nz ∧ ix = x ∧ iy = y ∧ iz = z ∧
      j = flat m x y z := by
  by_cases hc : 0 ≤ ix ∧ ix < m.Nx ∧ 0 ≤ iy ∧ iy < m.Ny ∧ 0 ≤ iz ∧ iz < m.Nz
  · obtain ⟨h1, h2, h3, h4, h5, h6⟩ := hc
    obtain ⟨x, rfl⟩ := Int.eq_ofNat_of_zero_le h1
    obtain ⟨y, rfl⟩ := Int.eq_ofNat_of_zero_le h3
    obtain ⟨z, rfl⟩ := Int.eq_ofNat_of_zero_le h5
    have hx : x < m.Nx := by omega
    have hy : y < m.Ny := by omega
    have hz : z < m.Nz := by omega
    rw [Index_ok m x y z hx hy hz] at h
    simp only [Except.ok.injEq] at h
    exact ⟨x, y, z, hx, hy, hz, rfl, rfl, rfl, h.symm⟩
  · exfalso
    unfold Index at h
    rw [if_pos] at h
    · cases h
    · simp only [Bool.or_eq_true, decide_eq_true_eq]
      omega

/-- The scan of the history does not look at the map. -/
theorem get_deflist {V : Type} (b : Regions V) (H : List (regionHist V)) (h : b.deflist = H)
    (R : V) : get b R = get ⟨[], H⟩ R := by
  simp only [get, h]

/-- On a history with ids in [0,255] the scan returns an id in [0,255]. -/
theorem getLoop_valid {V : Type} (H : List (regionHist V)) (hH : ∀ d, d ∈ H → validEntry d)
    (R : V) (n : Nat) : 0 ≤ getLoop H R n ∧ getLoop H R n ≤ 255 := by
  induction n with
  | zero => exact ⟨show (0 : Int) ≤ 0 by decide, show (0 : Int) ≤ 255 by decide⟩
  | succ n ih =>
    unfold getLoop
    cases hd : H[n]? with
    | none => exact ih
    | some d =>
      simp only []
      by_cases hs : d.shape R = true
      · rw [if_pos hs]
        exact hH d (List.getElem?_mem hd)
      · rw [if_neg hs]
        exact ih

/-- One round of the innermost loop of `shift` paints its cell when the scan is not 0. -/
theorem shiftBody_paints {V : Type} (m : Mesh V) (H : List (regionHist V)) (ix iy iz : Int) :
    Paints (fun b : Regions V => b.deflist = H) (fun b => b.gpuCache)
      (fun j v => get ⟨[], H⟩ (m.index2Coord ix iy iz) ≠ 0 ∧ Index m ix iy iz = .ok j ∧
        v = toByte (get ⟨[], H⟩ (m.index2Coord ix iy iz)))
      (fun b => if get b (m.index2Coord ix iy iz) ≠ 0
        then SetCell m b ix iy iz (get b (m.index2Coord ix iy iz)) else .ok b) := by
  intro b b' hI hF
  simp only [get_deflist b H hI] at hF
  by_cases h0 : get ⟨[], H⟩ (m.index2Coord ix iy iz) = 0
  · simp only [h0, ne_eq, not_true_eq_false, if_false, Except.ok.injEq] at hF
    subst hF
    exact ⟨hI, rfl, fun j => ⟨fun ⟨_, h, _⟩ => absurd h0 h, fun _ => rfl⟩⟩
  · simp only [ne_eq, h0, not_false_eq_true, if_true, SetCell] at hF
    cases hi : Index m ix iy iz with
    | error e => rw [hi] at hF; cases hF
    | ok i =>
      rw [hi] at hF
      simp only [BytesSet] at hF
      by_cases hlt : i < b.gpuCache.length
      · simp only [hlt, if_true, Except.ok.injEq] at hF
        subst hF
        refine ⟨hI, List.length_set _ _ _, fun j => ⟨?_, ?_⟩⟩
        · rintro ⟨v, _, hj, _⟩ hjlt
          simp only [Except.ok.injEq] at hj
          subst hj
          exact ⟨_, ⟨h0, rfl, rfl⟩, List.getElem?_set_self hjlt⟩
        · intro hno
          have hne : i ≠ j := by
            intro he
            exact hno ⟨_, h0, by rw [he], rfl⟩
          exact List.getElem?_set_ne hne
      · simp only [hlt, if_false] at hF
        cases hF

/-- The loops of `shift` paint the scan of the history on the cells of the slab where the
scan is not 0. -/
theorem shiftLoops_paints {V : Type} (m : Mesh V) (H : List (regionHist V)) (x1 x2 : Int) :
    Paints (fun b : Regions V => b.deflist = H) (fun b => b.gpuCache) (shiftW m H x1 x2)
      (shiftLoops m x1 x2) :=
  paints_forLoop _ _
    (fun iz j v => ∃ iy, iy < m.Ny ∧ ∃ k, k < (x2 - x1).toNat ∧
      (get ⟨[], H⟩ (m.index2Coord (x1 + (k : Nat)) (iy : Nat) (iz : Nat)) ≠ 0 ∧
        Index m (x1 + (k : Nat)) (iy : Nat) (iz : Nat) = .ok j ∧
        v = toByte (get ⟨[], H⟩ (m.index2Coord (x1 + (k : Nat)) (iy : Nat) (iz : Nat))))) _ m.Nz
    (fun iz _ => paints_forLoop _ _
      (fun iy j v => ∃ k, k < (x2 - x1).toNat ∧
        (get ⟨[], H⟩ (m.index2Coord (x1 + (k : Nat)) (iy : Nat) (iz : Nat)) ≠ 0 ∧
          Index m (x1 + (k : Nat)) (iy : Nat) (iz : Nat) = .ok j ∧
          v = toByte (get ⟨[], H⟩ (m.index2Coord (x1 + (k : Nat)) (iy : Nat) (iz : Nat))))) _ m.Ny
      (fun iy _ => paints_forLoop _ _
        (fun k j v =>
          get ⟨[], H⟩ (m.index2Coord (x1 + (k : Nat)) (iy : Nat) (iz : Nat)) ≠ 0 ∧
            Index m (x1 + (k : Nat)) (iy : Nat) (iz : Nat) = .ok j ∧
            v = toByte (get ⟨[], H⟩ (m.index2Coord (x1 + (k : Nat)) (iy : Nat) (iz : Nat))))
        _ (x2 - x1).toNat
        (fun k _ => shiftBody_paints m H (x1 + (k : Nat)) iy iz)))

/-- What the shift primitive returns: it needs a map of the length of the mesh, keeps that
length, fills a cell whose source is outside the window, and copies the source otherwise. -/
theorem ShiftBytes_cell {V : Type} (m : Mesh V) (src : List Nat) (dx : Int) (fill : Nat)
    (g : List Nat) (h : ShiftBytes m src dx fill = .ok g) :
    src.length = m.NCell ∧ g.length = m.NCell ∧
      ∀ ix iy iz : Nat, ix < m.Nx → iy < m.Ny → iz < m.Nz →
        g[flat m ix iy iz]? =
          if (ix : Int) - dx < 0 ∨ (ix : Int) - dx ≥ m.Nx then some fill
          else src[flat m ((ix : Int) - dx).toNat iy iz]? := by
  unfold ShiftBytes at h
  by_cases hl : src.length = m.NCell
  · rw [if_pos hl] at h
    simp only [Except.ok.injEq] at h
    subst h
    refine ⟨hl, by simp, fun ix iy iz hx hy hz => ?_⟩
    have hj := flat_lt m ix iy iz hx hy hz
    have hmod : flat m ix iy iz % m.Nx = ix := by
      unfold flat
      rw [Nat.add_comm, Nat.add_mul_mod_self_right, Nat.mod_eq_of_lt hx]
    rw [List.getElem?_map, List.getElem?_range hj]
    simp only [Option.map_some', hmod, Bool.or_eq_true, decide_eq_true_eq]
    by_cases hc : (ix : Int) - dx < 0 ∨ (ix : Int) - dx ≥ m.Nx
    · rw [if_pos hc, if_pos hc]
    · rw [if_neg hc, if_neg hc]
      have hx2 : ((ix : Int) - dx).toNat < m.Nx := by omega
      have hidx : (((flat m ix iy iz : Nat) : Int) - dx).toNat
          = flat m ((ix : Int) - dx).toNat iy iz := by
        unfold flat
        generalize (iz * m.Ny + iy) * m.Nx = B
        omega
      have hj2 := flat_lt m ((ix : Int) - dx).toNat iy iz hx2 hy hz
      rw [hidx, List.getD_eq_getElem?_getD, List.getElem?_eq_getElem (hl ▸ hj2)]
      rfl
  · rw [if_neg hl] at h
    cases h

/-- A write of the loops of `shift` at the flat index of a cell of the mesh is the write for
that cell: the cell is in the slab, the scan there is not 0, and its byte is written. -/
theorem shiftW_cell {V : Type} (m : Mesh V) (H : List (regionHist V)) (x1 x2 : Int)
    (ix iy iz : Nat) (hx : ix < m.Nx) (hy : iy < m.Ny) (v : Nat)
    (h : shiftW m H x1 x2 (flat m ix iy iz) v) :
    x1 ≤ ix ∧ (ix : Int) < x2 ∧ get ⟨[], H⟩ (m.index2Coord ix iy iz) ≠ 0 ∧
      v = toByte (get ⟨[], H⟩ (m.index2Coord ix iy iz)) := by
  obtain ⟨iz', _, iy', _, k, hk, hne, hidx, hv⟩ := h
  obtain ⟨x, y, z, hx', hy', _, ex, ey, ez, hj⟩ := Index_eq_ok m _ _ _ _ hidx
  obtain ⟨h1, h2, h3⟩ := flat_inj m ix iy iz x y z hx hx' hy hy' hj
  subst h1 h2 h3
  rw [ex, ey, ez] at hne hv
  exact ⟨by omega, by omega, hne, hv⟩

/-- The loops of `shift` write at every cell of the slab where the scan is not 0. -/
theorem shiftW_intro {V : Type} (m : Mesh V) (H : List (regionHist V)) (x1 x2 : Int)
    (ix iy iz : Nat) (hx : ix < m.Nx) (hy : iy < m.Ny) (hz : iz < m.Nz) (h1 : x1 ≤ ix)
    (h2 : (ix : Int) < x2) (hne : get ⟨[], H⟩ (m.index2Coord ix iy iz) ≠ 0) :
    shiftW m H x1 x2 (flat m ix iy iz) (toByte (get ⟨[], H⟩ (m.index2Coord ix iy iz))) := by
  have e : x1 + (((ix : Int) - x1).toNat : Nat) = ix := by omega
  refine ⟨iz, hz, iy, hy, ((ix : Int) - x1).toNat, by omega, ?_⟩
  rw [e]
  exact ⟨hne, Index_ok m ix iy iz hx hy hz, rfl⟩

/-- What `shift` does when it returns: the history is kept, the map had and has the length
of the mesh, a cell of the slab holds the byte of the scan of the history at its centre, and
a cell outside the slab holds what the shift primitive put there. -/
theorem shift_cell {V : Type} (m : Mesh V) (b b' : Regions V) (dx : Int)
    (h : shift m b dx = .ok b') :
    b'.deflist = b.deflist ∧ b.gpuCache.length = m.NCell ∧ b'.gpuCache.length = m.NCell ∧
      ∀ ix iy iz : Nat, ix < m.Nx → iy < m.Ny → iz < m.Nz →
        (((shiftDirtyRange m dx).1 ≤ ix ∧ (ix : Int) < (shiftDirtyRange m dx).2) →
          b'.gpuCache[flat m ix iy iz]? = some (toByte (get b (m.index2Coord ix iy iz)))) ∧
        (¬ ((shiftDirtyRange m dx).1 ≤ ix ∧ (ix : Int) < (shiftDirtyRange m dx).2) →
          b'.gpuCache[flat m ix iy iz]? =
            if (ix : Int) - dx < 0 ∨ (ix : Int) - dx ≥ m.Nx then some 0
            else b.gpuCache[flat m ((ix : Int) - dx).toNat iy iz]?) := by
  unfold shift at h
  cases hs : ShiftBytes m b.gpuCache dx 0 with
  | error e => rw [hs] at h; cases h
  | ok g0 =>
    rw [hs] at h
    simp only [] at h
    obtain ⟨hsrc, hg0, hshift⟩ := ShiftBytes_cell m b.gpuCache dx 0 g0 hs
    obtain ⟨hI, hlen, hcell⟩ := shiftLoops_paints m b.deflist (shiftDirtyRange m dx).1
      (shiftDirtyRange m dx).2 ⟨g0, b.deflist⟩ b' rfl h
    have hlen' : b'.gpuCache.length = m.NCell := hlen.trans hg0
    refine ⟨hI, hsrc, hlen', fun ix iy iz hx hy hz => ⟨?_, ?_⟩⟩
    · rintro ⟨h1, h2⟩
      rw [get_deflist b b.deflist rfl]
      by_cases h0 : get ⟨[], b.deflist⟩ (m.index2Coord ix iy iz) = 0
      · have hno : ¬ ∃ v, shiftW m b.deflist (shiftDirtyRange m dx).1 (shiftDirtyRange m dx).2
            (flat m ix iy iz) v := by
          rintro ⟨v, hv⟩
          exact (shiftW_cell m b.deflist _ _ ix iy iz hx hy v hv).2.2.1 h0
        have e1 := (hcell (flat m ix iy iz)).2 hno
        have e2 := hshift ix iy iz hx hy hz
        have hc : (ix : Int) - dx < 0 ∨ (ix : Int) - dx ≥ m.Nx := by
          unfold shiftDirtyRange at h1 h2
          by_cases hd : dx < 0
          · rw [if_pos hd] at h1 h2
            simp only at h1 h2
            omega
          · rw [if_neg hd] at h1 h2
            simp only at h1 h2
            omega
        rw [if_pos hc] at e2
        rw [h0]
        exact e1.trans e2
      · obtain ⟨v, hv, hget⟩ := (hcell (flat m ix iy iz)).1
          ⟨_, shiftW_intro m b.deflist _ _ ix iy iz hx hy hz h1 h2 h0⟩
          (by show flat m ix iy iz < g0.length
              rw [hg0]; exact flat_lt m ix iy iz hx hy hz)
        rw [hget, (shiftW_cell m b.deflist _ _ ix iy iz hx hy v hv).2.2.2]
    · intro hout
      have hno : ¬ ∃ v, shiftW m b.deflist (shiftDirtyRange m dx).1 (shiftDirtyRange m dx).2
          (flat m ix iy iz) v := by
        rintro ⟨v, hv⟩
        obtain ⟨h1, h2, _⟩ := shiftW_cell m b.deflist _ _ ix iy iz hx hy v hv
        exact hout ⟨h1, h2⟩
      exact ((hcell (flat m ix iy iz)).2 hno).trans (hshift ix iy iz hx hy hz)

/-- On a map of the length of the mesh, a shift by at most the width of the mesh returns. -/
theorem shift_total {V : Type} (m : Mesh V) (b : Regions V) (dx : Int)
    (hlen : b.gpuCache.length = m.NCell) (h1 : -(m.Nx : Int) ≤ dx) (h2 : dx ≤ m.Nx) :
    ∃ b', shift m b dx = .ok b' := by
  have hrange : ∀ k : Nat, k < ((shiftDirtyRange m dx).2 - (shiftDirtyRange m dx).1).toNat →
      ∃ x : Nat, x < m.Nx ∧ (shiftDirtyRange m dx).1 + (k : Int) = x := by
    intro k hk
    unfold shiftDirtyRange at hk ⊢
    by_cases hd : dx < 0
    · rw [if_pos hd] at hk ⊢
      simp only at hk ⊢
      exact ⟨((m.Nx : Int) + dx + k).toNat, by omega, by omega⟩
    · rw [if_neg hd] at hk ⊢
      simp only at hk ⊢
      exact ⟨k, by omega, by omega⟩
  have hs : ShiftBytes m b.gpuCache dx 0 = .ok ((List.range m.NCell).map fun j =>
      let ix2 : Int := ((j % m.Nx : Nat) : Int) - dx
      if ix2 < 0 || ix2 ≥ m.Nx then 0 else b.gpuCache.getD ((j : Int) - dx).toNat 0) :=
    if_pos hlen
  obtain ⟨_, hg0, _⟩ := ShiftBytes_cell m b.gpuCache dx 0 _ hs
  unfold shift
  rw [hs]
  simp only []
  obtain ⟨b', hb', _⟩ := forLoop_total (fun a : Regions V => a.gpuCache.length = m.NCell) _ m.Nz
    (fun iz hz => forLoop_total (fun a : Regions V => a.gpuCache.length = m.NCell) _ m.Ny
      (fun iy hy => forLoop_total (fun a : Regions V => a.gpuCache.length = m.NCell)
        (fun k b =>
          let ix : Int := (shiftDirtyRange m dx).1 + k
          let reg := get b (m.index2Coord ix iy iz)
          if reg ≠ 0 then SetCell m b ix iy iz reg else .ok b)
        ((shiftDirtyRange m dx).2 - (shiftDirtyRange m dx).1).toNat
        (fun k hk a ha => by
          obtain ⟨x, hx, ex⟩ := hrange k hk
          simp only [ex]
          by_cases h0 : get a (m.index2Coord x iy iz) = 0
          · exact ⟨a, by simp only [h0, ne_eq, not_true_eq_false, if_false], ha⟩
          · have hj : flat m x iy iz < a.gpuCache.length := ha ▸ flat_lt m x iy iz hx hy hz
            exact ⟨⟨a.gpuCache.set (flat m x iy iz) (toByte (get a (m.index2Coord x iy iz))),
                a.deflist⟩,
              by simp only [ne_eq, h0, not_false_eq_true, if_true, SetCell,
                Index_ok m x iy iz hx hy hz, BytesSet, hj],
              by simp only [List.length_set]; exact ha⟩)))
    ⟨_, b.deflist⟩ hg0
  exact ⟨b', hb'⟩

/-- On a history with ids in [0,255] the byte of the scan is the scan. -/
theorem toByte_get {V : Type} (b : Regions V) (hH : ∀ d, d ∈ b.deflist → validEntry d) (R : V) :
    ((toByte (get b R) : Nat) : Int) = get b R := by
  obtain ⟨h0, h255⟩ := getLoop_valid b.deflist hH R b.deflist.length
  have h0' : 0 ≤ get b R := h0
  rw [toByte_of_valid (get b R) h0' h255, Int.toNat_of_nonneg h0']

/-- Claim C9: for a history with ids in [0,255] and dx ≠ 0, `shift(dx)` returns on a map of
the length of the mesh when |dx| is at most Nx, and whenever it returns every cell of the
mesh in the dirty range holds the id that `get` returns at the shifted coordinate of the
cell. -/
theorem C9_shift_slab {V : Type} (m : Mesh V) (b : Regions V) (dx : Int) (_hdx : dx ≠ 0)
    (hH : ∀ d, d ∈ b.deflist → validEntry d) :
    (b.gpuCache.length = m.Nx * m.Ny * m.Nz → -(m.Nx : Int) ≤ dx → dx ≤ m.Nx →
      ∃ b', shift m b dx = .ok b') ∧
    ∀ b', shift m b dx = .ok b' →
      ∀ ix iy iz : Nat, ix < m.Nx → iy < m.Ny → iz < m.Nz →
        (shiftDirtyRange m dx).1 ≤ ix → (ix : Int) < (shiftDirtyRange m dx).2 →
          ∃ v : Nat, b'.gpuCache[(iz * m.Ny + iy) * m.Nx + ix]? = some v ∧
            (v : Int) = get b (m.index2Coord ix iy iz) := by
  refine ⟨fun hlen h1 h2 => shift_total m b dx hlen h1 h2, ?_⟩
  intro b' h ix iy iz hx hy hz h1 h2
  obtain ⟨_, _, _, hcell⟩ := shift_cell m b b' dx h
  exact ⟨_, (hcell ix iy iz hx hy hz).1 ⟨h1, h2⟩, toByte_get b hH _⟩

/-- A shift by one cell of a 3x1x1 window over a history of two regions: the shift returns
the map [2, 1, 1], whose slab cell holds the region of its shifted coordinate. -/
theorem C9_shift_slab_witness :
    mapOf (shift (gridMeshAt 3 1 1 1)
      ⟨[1, 1, 0], [⟨1, fun c => decide (c.1 < 2)⟩, ⟨2, fun c => decide (c.1 < 0)⟩]⟩ 1)
      = some [2, 1, 1] ∧
    ((∃ b', shift (gridMeshAt 3 1 1 1)
      ⟨[1, 1, 0], [⟨1, fun c => decide (c.1 < 2)⟩, ⟨2, fun c => decide (c.1 < 0)⟩]⟩ 1 = .ok b') ∧
    ∀ b', shift (gridMeshAt 3 1 1 1)
      ⟨[1, 1, 0], [⟨1, fun c => decide (c.1 < 2)⟩, ⟨2, fun c => decide (c.1 < 0)⟩]⟩ 1 = .ok b' →
      ∀ ix iy iz : Nat, ix < 3 → iy < 1 → iz < 1 →
        (shiftDirtyRange (gridMeshAt 3 1 1 1) 1).1 ≤ ix →
        (ix : Int) < (shiftDirtyRange (gridMeshAt 3 1 1 1) 1).2 →
          ∃ v : Nat, b'.gpuCache[(iz * 1 + iy) * 3 + ix]? = some v ∧
            (v : Int) = get (⟨[1, 1, 0], [⟨1, fun c => decide (c.1 < 2)⟩,
              ⟨2, fun c => decide (c.1 < 0)⟩]⟩ : Regions (Int × Int × Int))
              ((ix : Int) - 1, (iy : Int), (iz : Int))) :=
  ⟨by decide,
   (C9_shift_slab (gridMeshAt 3 1 1 1)
      ⟨[1, 1, 0], [⟨1, fun c => decide (c.1 < 2)⟩, ⟨2, fun c => decide (c.1 < 0)⟩]⟩ 1
      (by decide)
      (by intro d hd
          simp only [List.mem_cons, List.mem_singleton, List.not_mem_nil, or_false] at hd
          rcases hd with hd | hd <;> subst hd <;>
            exact ⟨by show (0 : Int) ≤ _; decide, by show (_ : Int) ≤ 255; decide⟩)).1
      (by decide) (by decide) (by decide),
   (C9_shift_slab (gridMeshAt 3 1 1 1)
      ⟨[1, 1, 0], [⟨1, fun c => decide (c.1 < 2)⟩, ⟨2, fun c => decide (c.1 < 0)⟩]⟩ 1
      (by decide)
      (by intro d hd
          simp only [List.mem_cons, List.mem_singleton, List.not_mem_nil, or_false] at hd
          rcases hd with hd | hd <;> subst hd <;>
            exact ⟨by show (0 : Int) ≤ _; decide, by show (_ : Int) ≤ 255; decide⟩)).2⟩

/-- The shift round trip on a history with ids in [0,255]: `shift(dx)` with the
coordinates `c1` of the moved window followed by `shift(-dx)` with the coordinates of the
mesh both return on a map of the length of the mesh when |dx| is at most Nx; and whenever
both return, every cell whose content stayed within the window holds its original byte,
every cell of the slab of the first shift holds, after that shift, the id `get` returns at
its coordinate `c1`, and every cell of the slab of the second shift holds, at the end, the
id `get` returns at its coordinate in the mesh. -/
theorem shift_round_trip_valid {V : Type} (m : Mesh V) (c1 : Int → Int → Int → V)
    (b : Regions V) (dx : Int) (hH : ∀ d, d ∈ b.deflist → validEntry d) :
    (b.gpuCache.length = m.Nx * m.Ny * m.Nz → -(m.Nx : Int) ≤ dx → dx ≤ m.Nx →
      ∃ b1 b2, shift ⟨m.isSet, m.Nx, m.Ny, m.Nz, c1⟩ b dx = .ok b1 ∧
        shift m b1 (-dx) = .ok b2) ∧
    ∀ b1 b2, shift ⟨m.isSet, m.Nx, m.Ny, m.Nz, c1⟩ b dx = .ok b1 → shift m b1 (-dx) = .ok b2 →
      (∀ ix iy iz : Nat, ix < m.Nx → iy < m.Ny → iz < m.Nz →
        0 ≤ (ix : Int) + dx → (ix : Int) + dx < m.Nx →
          b2.gpuCache[(iz * m.Ny + iy) * m.Nx + ix]? =
            b.gpuCache[(iz * m.Ny + iy) * m.Nx + ix]?) ∧
      (∀ ix iy iz : Nat, ix < m.Nx → iy < m.Ny → iz < m.Nz →
        (shiftDirtyRange m dx).1 ≤ ix → (ix : Int) < (shiftDirtyRange m dx).2 →
          ∃ v : Nat, b1.gpuCache[(iz * m.Ny + iy) * m.Nx + ix]? = some v ∧
            (v : Int) = get b (c1 ix iy iz)) ∧
      (∀ ix iy iz : Nat, ix < m.Nx → iy < m.Ny → iz < m.Nz →
        (shiftDirtyRange m (-dx)).1 ≤ ix → (ix : Int) < (shiftDirtyRange m (-dx)).2 →
          ∃ v : Nat, b2.gpuCache[(iz * m.Ny + iy) * m.Nx + ix]? = some v ∧
            (v : Int) = get b (m.index2Coord ix iy iz)) := by
  constructor
  · intro hlen h1 h2
    obtain ⟨b1, hb1⟩ := shift_total ⟨m.isSet, m.Nx, m.Ny, m.Nz, c1⟩ b dx hlen h1 h2
    obtain ⟨_, _, hl1, _⟩ := shift_cell _ b b1 dx hb1
    obtain ⟨b2, hb2⟩ := shift_total m b1 (-dx) hl1 (by omega) (by omega)
    exact ⟨b1, b2, hb1, hb2⟩
  · intro b1 b2 hb1 hb2
    obtain ⟨hd1, _, _, hcell1⟩ := shift_cell ⟨m.isSet, m.Nx, m.Ny, m.Nz, c1⟩ b b1 dx hb1
    obtain ⟨_, _, _, hcell2⟩ := shift_cell m b1 b2 (-dx) hb2
    have hH1 : ∀ d, d ∈ b1.deflist → validEntry d := hd1 ▸ hH
    refine ⟨fun ix iy iz hx hy hz h1 h2 => ?_, fun ix iy iz hx hy hz h1 h2 => ?_,
      fun ix iy iz hx hy hz h1 h2 => ?_⟩
    · have hx' : ((ix : Int) + dx).toNat < m.Nx := by omega
      have hout2 : ¬ ((shiftDirtyRange m (-dx)).1 ≤ ix ∧
          (ix : Int) < (shiftDirtyRange m (-dx)).2) := by
        unfold shiftDirtyRange
        by_cases hd : -dx < 0
        · rw [if_pos hd]; simp only; omega
        · rw [if_neg hd]; simp only; omega
      have hout1 : ¬ ((shiftDirtyRange (⟨m.isSet, m.Nx, m.Ny, m.Nz, c1⟩ : Mesh V) dx).1
            ≤ (((ix : Int) + dx).toNat : Nat) ∧
          ((((ix : Int) + dx).toNat : Nat) : Int)
            < (shiftDirtyRange (⟨m.isSet, m.Nx, m.Ny, m.Nz, c1⟩ : Mesh V) dx).2) := by
        unfold shiftDirtyRange
        by_cases hd : dx < 0
        · rw [if_pos hd]; simp only; omega
        · rw [if_neg hd]; simp only; omega
      have e2 := (hcell2 ix iy iz hx hy hz).2 hout2
      have e1 := (hcell1 ((ix : Int) + dx).toNat iy iz hx' hy hz).2 hout1
      have hc2 : ¬ ((ix : Int) - -dx < 0 ∨ (ix : Int) - -dx ≥ m.Nx) := by omega
      have hc1 : ¬ (((((ix : Int) + dx).toNat : Nat) : Int) - dx < 0 ∨
          ((((ix : Int) + dx).toNat : Nat) : Int) - dx ≥ m.Nx) := by omega
      have hi2 : ((ix : Int) - -dx).toNat = ((ix : Int) + dx).toNat := by omega
      have hi1 : (((((ix : Int) + dx).toNat : Nat) : Int) - dx).toNat = ix := by omega
      rw [if_neg hc2, hi2] at e2
      simp only [] at e1
      rw [if_neg hc1, hi1] at e1
      exact e2.trans e1
    · exact ⟨_, (hcell1 ix iy iz hx hy hz).1 ⟨h1, h2⟩, toByte_get b hH _⟩
    · refine ⟨_, (hcell2 ix iy iz hx hy hz).1 ⟨h1, h2⟩, ?_⟩
      rw [toByte_get b1 hH1, get_deflist b1 b.deflist hd1, get_deflist b b.deflist rfl]

/-- A round trip by one cell on a 3x1x1 window: the map goes from [1, 1, 0] to [2, 1, 1]
and back to [1, 1, 0]. -/
theorem shift_round_trip_valid_example :
    mapOf (shift (gridMesh 3 1 1)
      ⟨[2, 1, 1], [⟨1, fun c => decide (c.1 < 2)⟩, ⟨2, fun c => decide (c.1 < 0)⟩]⟩ (-1))
      = some [1, 1, 0] ∧
    ∃ b1 b2, shift ⟨true, 3, 1, 1, fun ix iy iz => (ix - 1, iy, iz)⟩
        ⟨[1, 1, 0], [⟨1, fun c => decide (c.1 < 2)⟩, ⟨2, fun c => decide (c.1 < 0)⟩]⟩ 1
          = .ok b1 ∧
      shift (gridMesh 3 1 1) b1 (-1) = .ok b2 :=
  ⟨by decide,
   (shift_round_trip_valid (gridMesh 3 1 1) (fun ix iy iz => (ix - 1, iy, iz))
      ⟨[1, 1, 0], [⟨1, fun c => decide (c.1 < 2)⟩, ⟨2, fun c => decide (c.1 < 0)⟩]⟩ 1
      (by intro d hd
          simp only [List.mem_cons, List.mem_singleton, List.not_mem_nil, or_false] at hd
          rcases hd with hd | hd <;> subst hd <;>
            exact ⟨by show (0 : Int) ≤ _; decide, by show (_ : Int) ≤ 255; decide⟩)).1
      (by decide) (by decide) (by decide)⟩

/-- Claim C10, evaluated on the code: on a configured 3x1x1 mesh `DefRegion(1, universe)`
and `DefRegion(256, x < 0)` are both accepted and leave the map [1, 1, 1], which is the
painting of that history; after the window has moved by one cell, `shift(1)` returns the
map [0, 1, 1], and the cell 0 of its dirty range [0, 1) holds 0 while `get` returns 256 at
the shifted coordinate of that cell. -/
theorem C10_shift_slab_differs_from_get_at_id_256 :
    mapOf (defRegions (gridMesh 3 1 1)
      [⟨1, universeShape⟩, ⟨256, fun c => decide (c.1 < 0)⟩] ⟨NewBytes 3, []⟩)
      = some [1, 1, 1] ∧
    paintHistory (gridMesh 3 1 1) [⟨1, universeShape⟩, ⟨256, fun c => decide (c.1 < 0)⟩]
      = .ok [1, 1, 1] ∧
    shiftDirtyRange (gridMeshAt 3 1 1 1) 1 = (0, 1) ∧
    mapOf (shift (gridMeshAt 3 1 1 1)
      ⟨[1, 1, 1], [⟨1, universeShape⟩, ⟨256, fun c => decide (c.1 < 0)⟩]⟩ 1)
      = some [0, 1, 1] ∧
    get (⟨[1, 1, 1], [⟨1, universeShape⟩, ⟨256, fun c => decide (c.1 < 0)⟩]⟩ :
      Regions (Int × Int × Int)) ((gridMeshAt 3 1 1 1).index2Coord 0 0 0) = 256 ∧
    mapOf (shift (gridMesh 3 1 1)
      ⟨[0, 1, 1], [⟨1, universeShape⟩, ⟨256, fun c => decide (c.1 < 0)⟩]⟩ (-1))
      = some [1, 1, 1] :=
  ⟨by decide, rfl, rfl, by decide, rfl, by decide⟩

/-! ## Volumes -/

/-- The counting loop of `volume`, started at `n`, adds the number of entries equal to the
region. -/
theorem volFold_count (region : Nat) (list : List Nat) (n : Nat) :
    list.foldl (fun vol reg => if reg = region then vol + 1 else vol) n
      = n + List.count region list := by
  induction list generalizing n with
  | nil => simp
  | cons x xs ih =>
    rw [List.foldl_cons, ih, List.count_cons]
    by_cases hx : x = region
    · simp only [hx, if_true, beq_self_eq_true]
      omega
    · have hb : (x == region) = false := by simpa using hx
      simp only [hx, if_false, hb, Bool.false_eq_true]
      omega

/-- The counting loop of `volume` counts the entries equal to the region. -/
theorem volLoop_count (region : Nat) (list : List Nat) :
    volLoop region list = List.count region list := by
  unfold volLoop
  rw [volFold_count, Nat.zero_add]

/-- The counts of the 256 bytes in a list of bytes add up to the length of the list. -/
theorem count_sum_bytes (list : List Nat) (hb : ∀ v, v ∈ list → v < 256) :
    Finset.sum (Finset.range 256) (fun id => List.count id list) = list.length := by
  induction list with
  | nil => simp
  | cons x xs ih =>
    have hx : x < 256 := hb x (List.mem_cons_self x xs)
    have h1 : ∀ id, List.count id (x :: xs) = List.count id xs + if id = x then 1 else 0 := by
      intro id
      rw [List.count_cons]
      by_cases h : x = id
      · subst h; simp
      · have hb' : (x == id) = false := by simpa using h
        have h' : ¬ id = x := fun e => h e.symm
        simp [hb', h']
    simp only [h1, Finset.sum_add_distrib, List.length_cons]
    rw [ih (fun v hv => hb v (List.mem_cons_of_mem x hv))]
    rw [Finset.sum_ite_eq' (Finset.range 256) x (fun _ => 1)]
    simp [hx]

/-- Claim C11: on a non-empty map of bytes of the length of the mesh, `volume(id)` returns
the number of cells equal to the byte of the id divided by the cell count, the counts of the
256 ids add up to the cell count, and the 256 volumes add up to 1. -/
theorem C11_volume_conservation {V : Type} (m : Mesh V) (r : Regions V)
    (hlen : r.gpuCache.length = m.Nx * m.Ny * m.Nz) (hpos : 0 < m.Nx * m.Ny * m.Nz)
    (hb : ∀ v, v ∈ r.gpuCache → v < 256) :
    (∀ id : Int, volume m r id
      = .ok ((List.count (toByte id) r.gpuCache : ℚ) / ((m.Nx * m.Ny * m.Nz : Nat) : ℚ))) ∧
    Finset.sum (Finset.range 256) (fun id => List.count id r.gpuCache) = m.Nx * m.Ny * m.Nz ∧
    Finset.sum (Finset.range 256)
      (fun id => (List.count id r.gpuCache : ℚ) / ((m.Nx * m.Ny * m.Nz : Nat) : ℚ)) = 1 := by
  have hsum := count_sum_bytes r.gpuCache hb
  refine ⟨fun id => ?_, hsum.trans hlen, ?_⟩
  · have hl : r.gpuCache.length = m.NCell := hlen
    simp only [volume, HostList, Download, hl, if_true, volLoop_count]
    rfl
  · rw [← Finset.sum_div]
    have hq : (Finset.sum (Finset.range 256) (fun id => (List.count id r.gpuCache : ℚ)))
        = ((m.Nx * m.Ny * m.Nz : Nat) : ℚ) := by
      rw [← hlen, ← hsum]
      push_cast
      rfl
    rw [hq]
    have hne : ((m.Nx * m.Ny * m.Nz : Nat) : ℚ) ≠ 0 := by
      exact_mod_cast (Nat.pos_iff_ne_zero.mp hpos)
    exact div_self hne

/-- The volumes on the 2x2x1 map [0, 1, 1, 7]. -/
theorem C11_volume_conservation_witness :
    (∀ id : Int, volume (gridMesh 2 2 1) ⟨[0, 1, 1, 7], []⟩ id
      = .ok ((List.count (toByte id) [0, 1, 1, 7] : ℚ) / ((2 * 2 * 1 : Nat) : ℚ))) ∧
    Finset.sum (Finset.range 256) (fun id => List.count id [0, 1, 1, 7]) = 2 * 2 * 1 ∧
    Finset.sum (Finset.range 256)
      (fun id => (List.count id [0, 1, 1, 7] : ℚ) / ((2 * 2 * 1 : Nat) : ℚ)) = 1 :=
  C11_volume_conservation (gridMesh 2 2 1) ⟨[0, 1, 1, 7], []⟩ (by decide) (by decide)
    (by decide)

/-! ## The view of `reshapeBytes` -/

/-- Claim C12: `reshapeBytes(array, size)` aborts with the argument error exactly when
Nx*Ny*Nz is not the length of the array; otherwise it returns Nz lists of Ny windows of
length Nx, and the element [iz][iy][ix] of that view is array[(iz*Ny + iy)*Nx + ix]. -/
theorem C12_reshapeBytes (array : List Nat) (Nx Ny Nz : Nat) :
    (reshapeBytes array Nx Ny Nz = .error .argument ↔ Nx * Ny * Nz ≠ array.length) ∧
    (Nx * Ny * Nz = array.length →
      ∃ arr, reshapeBytes array Nx Ny Nz = .ok arr ∧ arr.length = Nz ∧
        (∀ iz, iz < Nz → ∃ plane, arr[iz]? = some plane ∧ plane.length = Ny ∧
          ∀ iy, iy < Ny → ∃ row, plane[iy]? = some row ∧ row.len = Nx) ∧
        ∀ ix iy iz, ix < Nx → iy < Ny → iz < Nz →
          ∃ v, array[(iz * Ny + iy) * Nx + ix]? = some v ∧
            arrGet arr array iz iy ix = .ok v) := by
  constructor
  · unfold reshapeBytes
    by_cases h : Nx * Ny * Nz = array.length
    · rw [if_pos h]
      constructor
      · intro h'; cases h'
      · intro h'; exact absurd h h'
    · rw [if_neg h]
      exact ⟨fun _ => h, fun _ => rfl⟩
  · intro h
    refine ⟨_, if_pos h, by simp, fun iz hz => ?_, fun ix iy iz hx hy hz => ?_⟩
    · refine ⟨_, by rw [List.getElem?_map, List.getElem?_range hz]; rfl, by simp,
        fun iy hy => ?_⟩
      exact ⟨_, by rw [List.getElem?_map, List.getElem?_range hy]; rfl, rfl⟩
    · have hlt : (iz * Ny + iy) * Nx + ix < array.length := by
        have := flat_lt (⟨true, Nx, Ny, Nz, fun _ _ _ => ()⟩ : Mesh Unit) ix iy iz hx hy hz
        unfold flat Mesh.NCell at this
        simp only at this
        omega
      refine ⟨array[(iz * Ny + iy) * Nx + ix], List.getElem?_eq_getElem hlt, ?_⟩
      simp [arrGet, List.getElem?_range hz, List.getElem?_range hy, hx,
        List.getElem?_eq_getElem hlt]

/-- The view of the six bytes [10, 11, 12, 13, 14, 15] as 3x2x1: element [0][1][2] is the
byte at (0*2 + 1)*3 + 2 = 5; and a length that does not fit is refused. -/
theorem C12_reshapeBytes_witness :
    reshapeBytes [10, 11, 12] 2 2 1 = .error .argument ∧
    ∃ arr, reshapeBytes [10, 11, 12, 13, 14, 15] 3 2 1 = .ok arr ∧ arr.length = 1 ∧
      (∀ iz, iz < 1 → ∃ plane, arr[iz]? = some plane ∧ plane.length = 2 ∧
        ∀ iy, iy < 2 → ∃ row, plane[iy]? = some row ∧ row.len = 3) ∧
      ∀ ix iy iz, ix < 3 → iy < 2 → iz < 1 →
        ∃ v, ([10, 11, 12, 13, 14, 15] : List Nat)[(iz * 2 + iy) * 3 + ix]? = some v ∧
          arrGet arr [10, 11, 12, 13, 14, 15] iz iy ix = .ok v :=
  ⟨(C12_reshapeBytes [10, 11, 12] 2 2 1).1.2 (by decide),
   (C12_reshapeBytes [10, 11, 12, 13, 14, 15] 3 2 1).2 (by decide)⟩

/-! ## The history is append-only; a rejected id changes nothing -/

/-- The method `render` keeps the history. -/
theorem render_keeps_deflist {V : Type} (m : Mesh V) (r r' : Regions V) (id : Int)
    (s : Shape V) (h : render m r id s = .ok r') : r'.deflist = r.deflist := by
  unfold render at h
  cases h1 : HostList m r with
  | error e => rw [h1] at h; cases h
  | ok l =>
    rw [h1] at h
    simp only [] at h
    cases h2 : reshapeBytes l m.Nx m.Ny m.Nz with
    | error e => rw [h2] at h; cases h
    | ok arr =>
      rw [h2] at h
      simp only [] at h
      cases h3 : renderLoops m arr id s l with
      | error e => rw [h3] at h; cases h
      | ok l' =>
        rw [h3] at h
        simp only [] at h
        cases h4 : Upload r.gpuCache l' with
        | error e => rw [h4] at h; cases h
        | ok g =>
          rw [h4] at h
          simp only [Except.ok.injEq] at h
          subst h
          rfl

/-- A call of `DefRegion` that returns has appended its entry to the history. -/
theorem DefRegion_deflist {V : Type} (m : Mesh V) (r r' : Regions V) (id : Int) (s : Shape V)
    (h : DefRegion m r id s = .ok r') : r'.deflist = r.deflist ++ [⟨id, s⟩] := by
  unfold DefRegion at h
  cases h1 : defRegionId m id with
  | error e => rw [h1] at h; cases h
  | ok u =>
    rw [h1] at h
    simp only [] at h
    cases h2 : render m r id s with
    | error e => rw [h2] at h; cases h
    | ok r1 =>
      rw [h2] at h
      simp only [Except.ok.injEq] at h
      subst h
      simp only [render_keeps_deflist m r r1 id s h2]

/-- The method `SetCell` keeps the history. -/
theorem SetCell_deflist {V : Type} (m : Mesh V) (r r' : Regions V) (ix iy iz : Int)
    (region : Int) (h : SetCell m r ix iy iz region = .ok r') : r'.deflist = r.deflist := by
  unfold SetCell at h
  cases h2 : Index m ix iy iz with
  | error e => rw [h2] at h; cases h
  | ok i =>
    rw [h2] at h
    simp only [] at h
    cases h3 : BytesSet r.gpuCache i (toByte region) with
    | error e => rw [h3] at h; cases h
    | ok g =>
      rw [h3] at h
      simp only [Except.ok.injEq] at h
      subst h
      rfl

/-- Claim C13: the history is append-only. A call of `DefRegion(id, s)` that returns leaves
the old history followed by the one entry (id, s); `DefRegionCell`, `SetCell`, `render`,
`resize` and `shift` leave the history as it was. The methods `get` and `volume` return a
number and no state. -/
theorem C13_history_append_only {V : Type} (m : Mesh V) (r : Regions V) :
    (∀ id s r', DefRegion m r id s = .ok r' → r'.deflist = r.deflist ++ [⟨id, s⟩]) ∧
    (∀ id x y z r', DefRegionCell m r id x y z = .ok r' → r'.deflist = r.deflist) ∧
    (∀ ix iy iz region r', SetCell m r ix iy iz region = .ok r' → r'.deflist = r.deflist) ∧
    (∀ id s r', render m r id s = .ok r' → r'.deflist = r.deflist) ∧
    (∀ r', resize m r = .ok r' → r'.deflist = r.deflist) ∧
    (∀ dx r', shift m r dx = .ok r' → r'.deflist = r.deflist) := by
  refine ⟨fun id s r' h => DefRegion_deflist m r r' id s h,
    fun id x y z r' h => DefRegionCell_deflist m r r' id x y z h,
    fun ix iy iz region r' h => SetCell_deflist m r r' ix iy iz region h,
    fun id s r' h => render_keeps_deflist m r r' id s h, fun r' h => ?_,
    fun dx r' h => (shift_cell m r r' dx h).1⟩
  obtain ⟨g, hg, _, _⟩ := resize_spec m r
  rw [hg] at h
  simp only [Except.ok.injEq] at h
  subst h
  rfl

/-- The histories after a definition, a cell write and a resize on a 2x1x1 mesh. -/
theorem C13_history_append_only_witness :
    (∃ r', DefRegion (gridMesh 2 1 1) ⟨[0, 0], [⟨3, fun _ => true⟩]⟩ 4 (fun _ => false)
        = .ok r' ∧
      r'.deflist.map (fun d => d.region) = [3, 4]) ∧
    (∃ r', DefRegionCell (gridMesh 2 1 1) ⟨[0, 0], [⟨3, fun _ => true⟩]⟩ 5 0 0 0 = .ok r' ∧
      r'.deflist.map (fun d => d.region) = [3]) ∧
    (∃ r', resize (gridMesh 2 1 1) ⟨[0, 0], [⟨3, fun _ => true⟩]⟩ = .ok r' ∧
      r'.deflist.map (fun d => d.region) = [3]) :=
  ⟨⟨_, rfl, by
      rw [(C13_history_append_only (gridMesh 2 1 1) ⟨[0, 0], [⟨3, fun _ => true⟩]⟩).1
        4 (fun _ => false) _ rfl]
      rfl⟩,
   ⟨_, rfl, by
      rw [(C13_history_append_only (gridMesh 2 1 1) ⟨[0, 0], [⟨3, fun _ => true⟩]⟩).2.1
        5 0 0 0 _ rfl]
      rfl⟩,
   ⟨_, rfl, by
      rw [(C13_history_append_only (gridMesh 2 1 1) ⟨[0, 0], [⟨3, fun _ => true⟩]⟩).2.2.2.2.1
        _ rfl]
      rfl⟩⟩

/-- Claim C14: when the id of `DefRegion(id, s)` or `DefRegionCell(id, x, y, z)` fails the
validation of `defRegionId`, the call ends with the error of the validation and the map and
the history are the ones before the call. -/
theorem C14_rejection_is_atomic {V : Type} (m : Mesh V) (r : Regions V) (id : Int) (e : Err)
    (h : defRegionId m id = .error e) :
    (∀ s, DefRegionRun m r id s = (r, .error e) ∧ DefRegion m r id s = .error e) ∧
    (∀ x y z, DefRegionCellRun m r id x y z = (r, .error e) ∧
      DefRegionCell m r id x y z = .error e) := by
  refine ⟨fun s => ⟨?_, ?_⟩, fun x y z => ⟨?_, ?_⟩⟩
  · simp only [DefRegionRun, h]
  · simp only [DefRegion, h]
  · simp only [DefRegionCellRun, h]
  · simp only [DefRegionCell, h]

/-- The id -1 on a 2x1x1 mesh: both calls end with the fatal error and the map [7, 8] and
the empty history stay. -/
theorem C14_rejection_is_atomic_witness :
    (∀ s, DefRegionRun (gridMesh 2 1 1) ⟨[7, 8], []⟩ (-1) s = (⟨[7, 8], []⟩, .error .fatal) ∧
      DefRegion (gridMesh 2 1 1) ⟨[7, 8], []⟩ (-1) s = .error .fatal) ∧
    (∀ x y z, DefRegionCellRun (gridMesh 2 1 1) ⟨[7, 8], []⟩ (-1) x y z
        = (⟨[7, 8], []⟩, .error .fatal) ∧
      DefRegionCell (gridMesh 2 1 1) ⟨[7, 8], []⟩ (-1) x y z = .error .fatal) :=
  C14_rejection_is_atomic (gridMesh 2 1 1) ⟨[7, 8], []⟩ (-1) .fatal rfl

/-- A call of `DefRegion` returns a state exactly when `DefRegionRun` ends well in it. -/
theorem DefRegionRun_ok {V : Type} (m : Mesh V) (r r' : Regions V) (id : Int) (s : Shape V) :
    DefRegion m r id s = .ok r' ↔ DefRegionRun m r id s = (r', .ok ()) := by
  unfold DefRegion DefRegionRun
  cases defRegionId m id with
  | error e => simp
  | ok u =>
    simp only []
    cases render m r id s with
    | error e => simp
    | ok r1 => simp

/-- A call of `DefRegionCell` returns a state exactly when `DefRegionCellRun` ends well in
it. -/
theorem DefRegionCellRun_ok {V : Type} (m : Mesh V) (r r' : Regions V) (id : Int)
    (x y z : Int) :
    DefRegionCell m r id x y z = .ok r' ↔ DefRegionCellRun m r id x y z = (r', .ok ()) := by
  unfold DefRegionCell DefRegionCellRun
  cases defRegionId m id with
  | error e => simp
  | ok u =>
    simp only []
    cases Index m z y x with
    | error e => simp
    | ok i =>
      simp only []
      cases BytesSet r.gpuCache i (toByte id) with
      | error e => simp
      | ok g => simp

/-! ## The shift outside the slab -/

/-- Claim C15: `shift(dx)` recomputes the boundary slab only. It returns on a map of the
length of the mesh when |dx| is at most Nx; whenever it returns, every cell of the mesh
outside the dirty range holds what the shift primitive produced for it, which is the old
byte of the cell dx cells back, or 0 where that cell is outside the window; and every write
of the loops lands on a cell of the mesh inside the dirty range. -/
theorem C15_shift_outside_slab {V : Type} (m : Mesh V) (b : Regions V) (dx : Int) :
    (b.gpuCache.length = m.Nx * m.Ny * m.Nz → -(m.Nx : Int) ≤ dx → dx ≤ m.Nx →
      ∃ b', shift m b dx = .ok b') ∧
    (∀ b', shift m b dx = .ok b' →
      ∃ g0, ShiftBytes m b.gpuCache dx 0 = .ok g0 ∧
        ∀ ix iy iz : Nat, ix < m.Nx → iy < m.Ny → iz < m.Nz →
          ¬ ((shiftDirtyRange m dx).1 ≤ ix ∧ (ix : Int) < (shiftDirtyRange m dx).2) →
            b'.gpuCache[(iz * m.Ny + iy) * m.Nx + ix]? = g0[(iz * m.Ny + iy) * m.Nx + ix]? ∧
            g0[(iz * m.Ny + iy) * m.Nx + ix]? =
              if (ix : Int) - dx < 0 ∨ (ix : Int) - dx ≥ m.Nx then some 0
              else b.gpuCache[(iz * m.Ny + iy) * m.Nx + ((ix : Int) - dx).toNat]?) ∧
    (∀ j v, shiftW m b.deflist (shiftDirtyRange m dx).1 (shiftDirtyRange m dx).2 j v →
      ∃ ix iy iz : Nat, ix < m.Nx ∧ iy < m.Ny ∧ iz < m.Nz ∧ j = (iz * m.Ny + iy) * m.Nx + ix ∧
        (shiftDirtyRange m dx).1 ≤ ix ∧ (ix : Int) < (shiftDirtyRange m dx).2) := by
  refine ⟨fun hlen h1 h2 => shift_total m b dx hlen h1 h2, fun b' h => ?_, fun j v hw => ?_⟩
  · obtain ⟨_, hsrc, _, hcell⟩ := shift_cell m b b' dx h
    have hs : ShiftBytes m b.gpuCache dx 0 = .ok ((List.range m.NCell).map fun j =>
        let ix2 : Int := ((j % m.Nx : Nat) : Int) - dx
        if ix2 < 0 || ix2 ≥ m.Nx then 0 else b.gpuCache.getD ((j : Int) - dx).toNat 0) :=
      if_pos hsrc
    obtain ⟨_, _, hshift⟩ := ShiftBytes_cell m b.gpuCache dx 0 _ hs
    refine ⟨_, hs, fun ix iy iz hx hy hz hout => ⟨?_, hshift ix iy iz hx hy hz⟩⟩
    exact ((hcell ix iy iz hx hy hz).2 hout).trans (hshift ix iy iz hx hy hz).symm
  · obtain ⟨iz, hz, iy, hy, k, hk, _, hidx, _⟩ := hw
    obtain ⟨x, y, z, hx', hy', hz', ex, ey, ez, hj⟩ := Index_eq_ok m _ _ _ _ hidx
    exact ⟨x, y, z, hx', hy', hz', hj, by omega, by omega⟩

/-- A shift by one cell on the 3x1x1 map [4, 5, 6] with an empty history: the primitive
gives [0, 4, 5], and so does the shift on the two cells outside the slab. -/
theorem C15_shift_outside_slab_witness :
    mapOf (shift (gridMesh 3 1 1) ⟨[4, 5, 6], []⟩ 1) = some [0, 4, 5] ∧
    ∃ b', shift (gridMesh 3 1 1) ⟨[4, 5, 6], []⟩ 1 = .ok b' :=
  ⟨by decide, (C15_shift_outside_slab (gridMesh 3 1 1) ⟨[4, 5, 6], []⟩ 1).1
    (by decide) (by decide) (by decide)⟩

/-! ## Allocation -/

/-- Every index below the cell count is the flat index of a cell of the mesh. -/
theorem flat_surj {V : Type} (m : Mesh V) (j : Nat) (hj : j < m.NCell) :
    ∃ ix iy iz, ix < m.Nx ∧ iy < m.Ny ∧ iz < m.Nz ∧ flat m ix iy iz = j := by
  unfold Mesh.NCell at hj
  have hx : 0 < m.Nx := by
    rcases Nat.eq_zero_or_pos m.Nx with h | h
    · rw [h] at hj; simp at hj
    · exact h
  have hy : 0 < m.Ny := by
    rcases Nat.eq_zero_or_pos m.Ny with h | h
    · rw [h] at hj; simp at hj
    · exact h
  have hq : j / m.Nx < m.Nz * m.Ny := by
    rw [Nat.div_lt_iff_lt_mul hx]
    calc j < m.Nx * m.Ny * m.Nz := hj
      _ = m.Nz * m.Ny * m.Nx := by ring
  refine ⟨j % m.Nx, (j / m.Nx) % m.Ny, (j / m.Nx) / m.Ny, Nat.mod_lt _ hx, Nat.mod_lt _ hy,
    (Nat.div_lt_iff_lt_mul hy).2 hq, ?_⟩
  unfold flat
  have e1 : (j / m.Nx) / m.Ny * m.Ny + (j / m.Nx) % m.Ny = j / m.Nx := by
    rw [Nat.mul_comm]; exact Nat.div_add_mod _ _
  rw [e1, Nat.mul_comm]
  exact Nat.div_add_mod _ _

/-- Claim C16: on a configured mesh `alloc` returns, the map has length Nx*Ny*Nz and every
cell holds 0, whatever bytes the freshly allocated buffer holds. -/
theorem C16_alloc_all_zero {V : Type} (m : Mesh V) (hset : m.isSet = true) (r : Regions V)
    (fresh : List Nat) (hfresh : fresh.length = m.Nx * m.Ny * m.Nz) :
    (∃ r', allocOn m r fresh = .ok r' ∧ r'.gpuCache.length = m.Nx * m.Ny * m.Nz ∧
      r'.gpuCache = List.replicate (m.Nx * m.Ny * m.Nz) 0 ∧
      ∀ ix iy iz : Nat, ix < m.Nx → iy < m.Ny → iz < m.Nz →
        r'.gpuCache[(iz * m.Ny + iy) * m.Nx + ix]? = some 0) ∧
    (∃ r', alloc m r = .ok r' ∧ r'.gpuCache = List.replicate (m.Nx * m.Ny * m.Nz) 0) := by
  have key : ∀ buf : List Nat, buf.length = m.NCell →
      ∃ l', allocOn m r buf = .ok ⟨l', r.deflist ++ [⟨0, universeShape⟩]⟩ ∧
        l'.length = m.NCell ∧ l' = List.replicate m.NCell 0 ∧
        ∀ ix iy iz : Nat, ix < m.Nx → iy < m.Ny → iz < m.Nz →
          l'[flat m ix iy iz]? = some 0 := by
    intro buf hbuf
    obtain ⟨l', h1, hl, hcell⟩ := DefRegion_cell m ⟨buf, r.deflist⟩ 0 universeShape
      (defRegionId_valid m hset 0 (by decide) (by decide)) hbuf
    have hz : ∀ ix iy iz : Nat, ix < m.Nx → iy < m.Ny → iz < m.Nz →
        l'[flat m ix iy iz]? = some 0 := by
      intro ix iy iz hx hy hz
      have := hcell ix iy iz hx hy hz
      simpa [universeShape, toByte] using this
    refine ⟨l', h1, hl, ?_, hz⟩
    apply List.ext_getElem?
    intro j
    by_cases hj : j < m.NCell
    · obtain ⟨ix, iy, iz, hx, hy, hz', e⟩ := flat_surj m j hj
      rw [← e, hz ix iy iz hx hy hz', e, List.getElem?_replicate, if_pos hj]
    · have hj' : m.NCell ≤ j := Nat.le_of_not_lt hj
      rw [List.getElem?_eq_none (hl ▸ hj'), List.getElem?_eq_none (by simpa using hj')]
  constructor
  · obtain ⟨l', h1, hl, he, hz⟩ := key fresh hfresh
    exact ⟨_, h1, hl, he, hz⟩
  · obtain ⟨l', h1, _, he, _⟩ := key (NewBytes m.NCell) (by simp [NewBytes])
    exact ⟨_, h1, he⟩

/-- Allocation on a 2x2x1 mesh over a buffer that holds [9, 8, 7, 6]. -/
theorem C16_alloc_all_zero_witness :
    (∃ r', allocOn (gridMesh 2 2 1) ⟨[], []⟩ [9, 8, 7, 6] = .ok r' ∧
      r'.gpuCache.length = 2 * 2 * 1 ∧
      r'.gpuCache = List.replicate (2 * 2 * 1) 0 ∧
      ∀ ix iy iz : Nat, ix < 2 → iy < 2 → iz < 1 →
        r'.gpuCache[(iz * 2 + iy) * 2 + ix]? = some 0) ∧
    (∃ r', alloc (gridMesh 2 2 1) ⟨[], []⟩ = .ok r' ∧
      r'.gpuCache = List.replicate (2 * 2 * 1) 0) :=
  C16_alloc_all_zero (gridMesh 2 2 1) rfl ⟨[], []⟩ [9, 8, 7, 6] (by decide)

/-! ## The map agrees with the scan of the history -/

/-- A loop over a list keeps what each round keeps. -/
theorem forRange_inv {α β : Type} (P : α → Prop) (body : β → α → Except Err α) (ds : List β)
    (h : ∀ d, d ∈ ds → ∀ a a', P a → body d a = .ok a' → P a') :
    ∀ a a', P a → forRange body ds a = .ok a' → P a' := by
  induction ds with
  | nil =>
    intro a a' ha hr
    simp only [forRange, Except.ok.injEq] at hr
    exact hr ▸ ha
  | cons d ds ih =>
    intro a a' ha hr
    unfold forRange at hr
    cases h1 : body d a with
    | error e => rw [h1] at hr; cases hr
    | ok a1 =>
      rw [h1] at hr
      exact ih (fun e he => h e (List.mem_cons_of_mem d he)) a1 a'
        (h d (List.mem_cons_self d ds) a a1 ha h1) hr

/-- The replay loop of `resize` takes a map that agrees with the scan of the entries `pre` to
a map that agrees with the scan of `pre` followed by the replayed entries. -/
theorem replay_cell {V : Type} (m : Mesh V) (H : List (regionHist V))
    (ds : List (regionHist V)) :
    ∀ (pre : List (regionHist V)) (l : List Nat), l.length = m.NCell →
      (∀ ix iy iz : Nat, ix < m.Nx → iy < m.Ny → iz < m.Nz →
        l[flat m ix iy iz]? = some (toByte (get ⟨[], pre⟩ (m.index2Coord ix iy iz)))) →
      ∃ g, forRange (fun d r => render m r d.region d.shape) ds ⟨l, H⟩ = .ok ⟨g, H⟩ ∧
        g.length = m.NCell ∧
        ∀ ix iy iz : Nat, ix < m.Nx → iy < m.Ny → iz < m.Nz →
          g[flat m ix iy iz]? =
            some (toByte (get ⟨[], pre ++ ds⟩ (m.index2Coord ix iy iz))) := by
  induction ds with
  | nil =>
    intro pre l hl hc
    refine ⟨l, rfl, hl, fun ix iy iz hx hy hz => ?_⟩
    rw [List.append_nil]
    exact hc ix iy iz hx hy hz
  | cons d ds ih =>
    intro pre l hl hc
    obtain ⟨l1, h1, hl1, hc1⟩ := render_cell m ⟨l, H⟩ d.region d.shape hl
    obtain ⟨g, h2, hg, hc2⟩ := ih (pre ++ [d]) l1 hl1 (fun ix iy iz hx hy hz => by
      rw [hc1 ix iy iz hx hy hz, get_snoc [] [] pre d]
      by_cases hs : d.shape (m.index2Coord ix iy iz) = true
      · rw [if_pos hs, if_pos hs]
      · rw [if_neg hs, if_neg hs]
        exact hc ix iy iz hx hy hz)
    refine ⟨g, ?_, hg, fun ix iy iz hx hy hz => ?_⟩
    · simp only [forRange, h1, h2]
    · have := hc2 ix iy iz hx hy hz
      rw [List.append_assoc, List.singleton_append] at this
      exact this

/-- What the steps keep: the map has the length of the mesh, the ids of the history are in
[0,255], and every cell holds the byte of the scan of the history at its centre. -/
theorem runOp_consistent {V : Type} (op : Op V)
    (hop : ∀ id s, op = Op.define id s → 0 ≤ id ∧ id ≤ 255)
    (st st' : Mesh V × Regions V) (h : runOp op st = .ok st')
    (hlen : st.2.gpuCache.length = st.1.NCell)
    (hH : ∀ d, d ∈ st.2.deflist → validEntry d)
    (hc : ∀ ix iy iz : Nat, ix < st.1.Nx → iy < st.1.Ny → iz < st.1.Nz →
      st.2.gpuCache[flat st.1 ix iy iz]? =
        some (toByte (get st.2 (st.1.index2Coord ix iy iz)))) :
    st'.2.gpuCache.length = st'.1.NCell ∧ (∀ d, d ∈ st'.2.deflist → validEntry d) ∧
      ∀ ix iy iz : Nat, ix < st'.1.Nx → iy < st'.1.Ny → iz < st'.1.Nz →
        st'.2.gpuCache[flat st'.1 ix iy iz]? =
          some (toByte (get st'.2 (st'.1.index2Coord ix iy iz))) := by
  obtain ⟨m, r⟩ := st
  cases op with
  | define id s =>
    simp only [runOp] at h
    simp only at hlen hH hc
    have hid : defRegionId m id = .ok () := by
      cases h1 : defRegionId m id with
      | error e => simp only [DefRegion, h1] at h; cases h
      | ok u => rfl
    obtain ⟨l', h1, hl, hcell⟩ := DefRegion_cell m r id s hid hlen
    rw [h1] at h
    simp only [Except.ok.injEq] at h
    subst h
    refine ⟨hl, ?_, fun ix iy iz hx hy hz => ?_⟩
    · intro d hd
      simp only [List.mem_append, List.mem_singleton] at hd
      rcases hd with hd | hd
      · exact hH d hd
      · subst hd; exact hop id s rfl
    · show l'[flat m ix iy iz]? = _
      rw [hcell ix iy iz hx hy hz, get_snoc l' r.gpuCache r.deflist ⟨id, s⟩]
      by_cases hs : s (m.index2Coord ix iy iz) = true
      · simp only [hs, if_true]
      · simp only [hs, Bool.false_eq_true, if_false]
        exact hc ix iy iz hx hy hz
  | resizeTo m' =>
    simp only [runOp] at h
    simp only at hH
    obtain ⟨g, h1, hg, hcell⟩ := replay_cell m' r.deflist r.deflist []
      (NewBytes (m'.Nx * m'.Ny * m'.Nz)) (by simp [NewBytes, Mesh.NCell])
      (fun ix iy iz hx hy hz => by
        have hj := flat_lt m' ix iy iz hx hy hz
        unfold Mesh.NCell at hj
        rw [NewBytes, List.getElem?_replicate, if_pos hj]
        rfl)
    have h2 : resize m' r = .ok ⟨g, r.deflist⟩ := h1
    rw [h2] at h
    simp only [Except.ok.injEq] at h
    subst h
    refine ⟨hg, hH, fun ix iy iz hx hy hz => ?_⟩
    have := hcell ix iy iz hx hy hz
    rw [List.nil_append] at this
    rw [get_deflist ⟨g, r.deflist⟩ r.deflist rfl]
    exact this

/-- Claim C17: for every state reached from the all-zero map of a mesh and the empty history
by calls of `DefRegion` with ids in [0,255] and by resizes, every cell of the current mesh
holds the id that `get` returns at the centre of the cell. -/
theorem C17_map_agrees_with_history {V : Type} (m0 : Mesh V) (ops : List (Op V))
    (hops : ∀ id s, Op.define id s ∈ ops → 0 ≤ id ∧ id ≤ 255) (m : Mesh V) (r : Regions V)
    (h : runOps ops (m0, ⟨List.replicate (m0.Nx * m0.Ny * m0.Nz) 0, []⟩) = .ok (m, r)) :
    ∀ ix iy iz : Nat, ix < m.Nx → iy < m.Ny → iz < m.Nz →
      ∃ v : Nat, r.gpuCache[(iz * m.Ny + iy) * m.Nx + ix]? = some v ∧
        (v : Int) = get r (m.index2Coord ix iy iz) := by
  have hinv := forRange_inv
    (fun st : Mesh V × Regions V => st.2.gpuCache.length = st.1.NCell ∧
      (∀ d, d ∈ st.2.deflist → validEntry d) ∧
      ∀ ix iy iz : Nat, ix < st.1.Nx → iy < st.1.Ny → iz < st.1.Nz →
        st.2.gpuCache[flat st.1 ix iy iz]? =
          some (toByte (get st.2 (st.1.index2Coord ix iy iz))))
    runOp ops
    (fun op hop a a' ha hr => runOp_consistent op
      (fun id s e => hops id s (e ▸ hop)) a a' hr ha.1 ha.2.1 ha.2.2)
    (m0, ⟨List.replicate (m0.Nx * m0.Ny * m0.Nz) 0, []⟩) (m, r)
    ⟨by simp [Mesh.NCell], by simp, fun ix iy iz hx hy hz => by
      have hj := flat_lt m0 ix iy iz hx hy hz
      unfold Mesh.NCell at hj
      simp only
      rw [List.getElem?_replicate, if_pos hj]
      rfl⟩ h
  obtain ⟨_, hH, hc⟩ := hinv
  intro ix iy iz hx hy hz
  exact ⟨_, hc ix iy iz hx hy hz, toByte_get r hH _⟩

/-- A run on a 2x1x1 mesh: define region 1 where x < 1, then resize to 3x1x1; the run
returns the map [1, 0, 0]. -/
theorem C17_map_agrees_with_history_witness :
    (runOps [Op.define 1 (fun c => decide (c.1 < 1)), Op.resizeTo (gridMesh 3 1 1)]
        (gridMesh 2 1 1, ⟨List.replicate (2 * 1 * 1) 0, []⟩)).toOption.map
          (fun st => st.2.gpuCache) = some [1, 0, 0] ∧
    ∀ ix iy iz : Nat, ix < 3 → iy < 1 → iz < 1 →
      ∃ v : Nat, ([1, 0, 0] : List Nat)[(iz * 1 + iy) * 3 + ix]? = some v ∧
        (v : Int) = get (⟨[1, 0, 0], [⟨1, fun c => decide (c.1 < 1)⟩]⟩ :
          Regions (Int × Int × Int)) ((ix : Int), (iy : Int), (iz : Int)) :=
  ⟨by decide,
   C17_map_agrees_with_history (gridMesh 2 1 1)
    [Op.define 1 (fun c => decide (c.1 < 1)), Op.resizeTo (gridMesh 3 1 1)]
    (by intro id s hmem
        simp only [List.mem_cons, List.mem_singleton, List.not_mem_nil, or_false] at hmem
        rcases hmem with hmem | hmem
        · injection hmem with h1 h2
          subst h1
          exact ⟨by decide, by decide⟩
        · cases hmem)
    (gridMesh 3 1 1) ⟨[1, 0, 0], [⟨1, fun c => decide (c.1 < 1)⟩]⟩ rfl⟩

/-! ## Safety of the rasterizer -/

/-- Claim C18: when the map has length Nx*Ny*Nz, `render` goes through. `HostList` returns
the map, `reshapeBytes` returns a view and not the length-mismatch error, every write
arr[iz][iy][ix] with indices in the ranges of the loops is within bounds and keeps the
length of the host array, and the uploaded map has length Nx*Ny*Nz again. -/
theorem C18_render_safe {V : Type} (m : Mesh V) (r : Regions V) (id : Int) (s : Shape V)
    (hlen : r.gpuCache.length = m.Nx * m.Ny * m.Nz) :
    HostList m r = .ok r.gpuCache ∧
    (∃ arr, reshapeBytes r.gpuCache m.Nx m.Ny m.Nz = .ok arr ∧
      ∀ (l : List Nat) (ix iy iz v : Nat), ix < m.Nx → iy < m.Ny → iz < m.Nz →
        ∃ l', arrSet arr l iz iy ix v = .ok l' ∧ l'.length = l.length) ∧
    ∃ r', render m r id s = .ok r' ∧ r'.gpuCache.length = m.Nx * m.Ny * m.Nz := by
  have hl : r.gpuCache.length = m.NCell := hlen
  refine ⟨by simp only [HostList, Download, hl, if_true], ?_, ?_⟩
  · refine ⟨_, if_pos hlen.symm, fun l ix iy iz v hx hy hz => ?_⟩
    exact ⟨_, arrSet_reshape r.gpuCache l m.Nx m.Ny m.Nz _ (if_pos hlen.symm) iz iy ix hz hy hx v,
      List.length_set _ _ _⟩
  · obtain ⟨l', hr, hl', _⟩ := render_paints m r id s hl
    exact ⟨_, hr, hl'⟩

/-- The rasterizer on the 2x2x1 map [1, 2, 3, 4] goes through. -/
theorem C18_render_safe_witness :
    HostList (gridMesh 2 2 1) ⟨[1, 2, 3, 4], []⟩ = .ok [1, 2, 3, 4] ∧
    (∃ arr, reshapeBytes [1, 2, 3, 4] 2 2 1 = .ok arr ∧
      ∀ (l : List Nat) (ix iy iz v : Nat), ix < 2 → iy < 2 → iz < 1 →
        ∃ l', arrSet arr l iz iy ix v = .ok l' ∧ l'.length = l.length) ∧
    ∃ r', render (gridMesh 2 2 1) ⟨[1, 2, 3, 4], []⟩ 300 (fun _ => true) = .ok r' ∧
      r'.gpuCache.length = 2 * 2 * 1 :=
  C18_render_safe (gridMesh 2 2 1) ⟨[1, 2, 3, 4], []⟩ 300 (fun _ => true) (by decide)

/-! ## Disjoint definitions commute -/

/-- Claim C19: on a configured mesh, for a map of the length of the mesh, ids a and b in
[0,255] and shapes A and B that share no cell centre, `DefRegion(a, A)` then
`DefRegion(b, B)` and `DefRegion(b, B)` then `DefRegion(a, A)` all return and end with the
same map. -/
theorem C19_disjoint_commute {V : Type} (m : Mesh V) (hset : m.isSet = true) (r : Regions V)
    (hlen : r.gpuCache.length = m.Nx * m.Ny * m.Nz) (a b : Int) (ha0 : 0 ≤ a) (ha : a ≤ 255)
    (hb0 : 0 ≤ b) (hb : b ≤ 255) (A B : Shape V)
    (hdis : ∀ ix iy iz : Nat, ix < m.Nx → iy < m.Ny → iz < m.Nz →
      ¬ (A (m.index2Coord ix iy iz) = true ∧ B (m.index2Coord ix iy iz) = true)) :
    ∃ r1 r2 q1 q2, DefRegion m r a A = .ok r1 ∧ DefRegion m r1 b B = .ok r2 ∧
      DefRegion m r b B = .ok q1 ∧ DefRegion m q1 a A = .ok q2 ∧
      r2.gpuCache = q2.gpuCache := by
  have hida := defRegionId_valid m hset a ha0 ha
  have hidb := defRegionId_valid m hset b hb0 hb
  obtain ⟨l1, hr1, hl1, hc1⟩ := render_paints m r a A hlen
  obtain ⟨l2, hr2, hl2, hc2⟩ := render_paints m ⟨l1, r.deflist ++ [⟨a, A⟩]⟩ b B hl1
  obtain ⟨k1, hq1, hk1, hd1⟩ := render_paints m r b B hlen
  obtain ⟨k2, hq2, hk2, hd2⟩ := render_paints m ⟨k1, r.deflist ++ [⟨b, B⟩]⟩ a A hk1
  refine ⟨⟨l1, r.deflist ++ [⟨a, A⟩]⟩, ⟨l2, r.deflist ++ [⟨a, A⟩] ++ [⟨b, B⟩]⟩,
    ⟨k1, r.deflist ++ [⟨b, B⟩]⟩, ⟨k2, r.deflist ++ [⟨b, B⟩] ++ [⟨a, A⟩]⟩, ?_, ?_, ?_, ?_, ?_⟩
  · simp only [DefRegion, hida, hr1]
  · simp only [DefRegion, hidb, hr2]
  · simp only [DefRegion, hidb, hq1]
  · simp only [DefRegion, hida, hq2]
  · show l2 = k2
    apply List.ext_getElem?
    intro j
    by_cases hj : j < m.NCell
    · by_cases hwa : ∃ v, renderW m a A j v
      · have hwb : ¬ ∃ v, renderW m b B j v := by
          rintro ⟨w, iz', hz', iy', hy', ix', hx', hB, ej', _⟩
          obtain ⟨v, iz, hz, iy, hy, ix, hx, hA, ej, _⟩ := hwa
          obtain ⟨e1, e2, e3⟩ := flat_inj m ix iy iz ix' iy' iz' hx hx' hy hy' (ej ▸ ej')
          subst e1 e2 e3
          exact hdis ix iy iz hx hy hz ⟨hA, hB⟩
        obtain ⟨v1, ⟨_, _, _, _, _, _, _, _, e1⟩, g1⟩ := (hc1 j).1 hwa hj
        obtain ⟨v2, ⟨_, _, _, _, _, _, _, _, e2⟩, g2⟩ := (hd2 j).1 hwa hj
        have s1 : l2[j]? = l1[j]? := (hc2 j).2 hwb
        rw [s1, g1, g2, e1, e2]
      · have s2 : k2[j]? = k1[j]? := (hd2 j).2 hwa
        have s1 : l1[j]? = r.gpuCache[j]? := (hc1 j).2 hwa
        by_cases hwb : ∃ v, renderW m b B j v
        · obtain ⟨v1, ⟨_, _, _, _, _, _, _, _, e1⟩, g1⟩ := (hc2 j).1 hwb hj
          obtain ⟨v2, ⟨_, _, _, _, _, _, _, _, e2⟩, g2⟩ := (hd1 j).1 hwb hj
          rw [s2, g1, g2, e1, e2]
        · have t1 : l2[j]? = l1[j]? := (hc2 j).2 hwb
          have t2 : k1[j]? = r.gpuCache[j]? := (hd1 j).2 hwb
          rw [s2, t1, s1, t2]
    · have hj' : m.NCell ≤ j := Nat.le_of_not_lt hj
      rw [List.getElem?_eq_none (hl2 ▸ hj'), List.getElem?_eq_none (hk2 ▸ hj')]

/-- Two disjoint definitions on a 2x1x1 mesh, in both orders. -/
theorem C19_disjoint_commute_witness :
    ∃ r1 r2 q1 q2,
      DefRegion (gridMesh 2 1 1) ⟨[9, 9], []⟩ 1 (fun c => decide (c.1 < 1)) = .ok r1 ∧
      DefRegion (gridMesh 2 1 1) r1 2 (fun c => decide (1 ≤ c.1)) = .ok r2 ∧
      DefRegion (gridMesh 2 1 1) ⟨[9, 9], []⟩ 2 (fun c => decide (1 ≤ c.1)) = .ok q1 ∧
      DefRegion (gridMesh 2 1 1) q1 1 (fun c => decide (c.1 < 1)) = .ok q2 ∧
      r2.gpuCache = q2.gpuCache :=
  C19_disjoint_commute (gridMesh 2 1 1) rfl ⟨[9, 9], []⟩ (by decide) 1 2 (by decide)
    (by decide) (by decide) (by decide) (fun c => decide (c.1 < 1))
    (fun c => decide (1 ≤ c.1))
    (by intro ix iy iz _ _ _
        simp only [gridMesh, decide_eq_true_eq]
        omega)

/-! ## The staggered mask -/

/-- Claim C20: for a cell within the mesh and a direction that `swapIndex` takes to one of
the three components, `SetSide2` makes the very call of `cuda.SetCell` that `SetSide1` makes
for the cell one step further along that component, with a wrap to 0 after the last cell;
and the index it writes is within the mesh. -/
theorem C20_SetSide2_is_SetSide1_of_next {S Val : Type} (swapIndex : Int → Int → Int)
    (init : S → S) (setCell : S → Int → Int → Int → Int → Val → Except Err S)
    (s0 s1 s2 : Int) (slice : S) (direction : Int) (ix iy iz : Int) (value : Val)
    (hd0 : 0 ≤ swapIndex direction 3) (hd3 : swapIndex direction 3 < 3)
    (hx0 : 0 ≤ ix) (hx : ix < s2) (hy0 : 0 ≤ iy) (hy : iy < s1) (hz0 : 0 ≤ iz) (hz : iz < s0) :
    (swapIndex direction 3 = 2 →
      SetSide2 swapIndex init setCell s0 s1 s2 slice direction ix iy iz value
        = SetSide1 swapIndex init setCell slice direction ((ix + 1) % s2) iy iz value) ∧
    (swapIndex direction 3 = 1 →
      SetSide2 swapIndex init setCell s0 s1 s2 slice direction ix iy iz value
        = SetSide1 swapIndex init setCell slice direction ix ((iy + 1) % s1) iz value) ∧
    (swapIndex direction 3 = 0 →
      SetSide2 swapIndex init setCell s0 s1 s2 slice direction ix iy iz value
        = SetSide1 swapIndex init setCell slice direction ix iy ((iz + 1) % s0) value) ∧
    ∃ j0 j1 j2 : Int,
      SetSide2 swapIndex init setCell s0 s1 s2 slice direction ix iy iz value
        = setCell (init slice) (swapIndex direction 3) j0 j1 j2 value ∧
      0 ≤ j0 ∧ j0 < s0 ∧ 0 ≤ j1 ∧ j1 < s1 ∧ 0 ≤ j2 ∧ j2 < s2 := by
  have hng : (decide (swapIndex direction 3 < 0) || decide (swapIndex direction 3 ≥ 3))
      = false := by
    simp only [Bool.or_eq_false_iff, decide_eq_false_iff_not]
    omega
  have wrap : ∀ c n : Int, 0 ≤ c → c < n →
      (if c + 1 = n then (0 : Int) else c + 1) = (c + 1) % n := by
    intro c n h0 hn
    by_cases he : c + 1 = n
    · rw [if_pos he, he, Int.emod_self]
    · rw [if_neg he, Int.emod_eq_of_lt (by omega) (by omega)]
  have c2 : swapIndex direction 3 = 2 →
      SetSide2 swapIndex init setCell s0 s1 s2 slice direction ix iy iz value
        = setCell (init slice) (swapIndex direction 3) iz iy ((ix + 1) % s2) value := by
    intro h
    unfold SetSide2
    simp only [hng, Bool.false_eq_true, if_false]
    rw [← wrap ix s2 hx0 hx]
    simp only [h]
    by_cases he : ix + 1 = s2
    · simp [he]
    · simp [he]
  have c1 : swapIndex direction 3 = 1 →
      SetSide2 swapIndex init setCell s0 s1 s2 slice direction ix iy iz value
        = setCell (init slice) (swapIndex direction 3) iz ((iy + 1) % s1) ix value := by
    intro h
    unfold SetSide2
    simp only [hng, Bool.false_eq_true, if_false]
    rw [← wrap iy s1 hy0 hy]
    simp only [h]
    by_cases he : iy + 1 = s1
    · simp [he]
    · simp [he]
  have c0 : swapIndex direction 3 = 0 →
      SetSide2 swapIndex init setCell s0 s1 s2 slice direction ix iy iz value
        = setCell (init slice) (swapIndex direction 3) ((iz + 1) % s0) iy ix value := by
    intro h
    unfold SetSide2
    simp only [hng, Bool.false_eq_true, if_false]
    rw [← wrap iz s0 hz0 hz]
    simp only [h]
    by_cases he : iz + 1 = s0
    · simp [he]
    · simp [he]
  have bnd : ∀ c n : Int, 0 ≤ c → c < n → 0 ≤ (c + 1) % n ∧ (c + 1) % n < n := by
    intro c n h0 hn
    exact ⟨Int.emod_nonneg _ (by omega), Int.emod_lt_of_pos _ (by omega)⟩
  refine ⟨fun h => c2 h, fun h => c1 h, fun h => c0 h, ?_⟩
  have hcases : swapIndex direction 3 = 0 ∨ swapIndex direction 3 = 1 ∨
      swapIndex direction 3 = 2 := by omega
  rcases hcases with h | h | h
  · exact ⟨_, _, _, c0 h, (bnd iz s0 hz0 hz).1, (bnd iz s0 hz0 hz).2, hy0, hy, hx0, hx⟩
  · exact ⟨_, _, _, c1 h, hz0, hz, (bnd iy s1 hy0 hy).1, (bnd iy s1 hy0 hy).2, hx0, hx⟩
  · exact ⟨_, _, _, c2 h, hz0, hz, hy0, hy, (bnd ix s2 hx0 hx).1, (bnd ix s2 hx0 hx).2⟩

/-- The last cell along X of a mesh of size [1, 2, 3], with a `swapIndex` that mirrors the
component and a `cuda.SetCell` that logs its call: `SetSide2` on the cell (2, 1, 0) makes
the call of `SetSide1` on the cell (0, 1, 0). -/
theorem C20_SetSide2_is_SetSide1_of_next_witness :
    SetSide2 (fun d _ => 2 - d) (fun s => s)
        (fun (s : List (Int × Int × Int × Int × Nat)) c i0 i1 i2 v =>
          .ok ((c, i0, i1, i2, v) :: s))
        1 2 3 [] 0 2 1 0 7
      = SetSide1 (fun d _ => 2 - d) (fun s => s)
        (fun (s : List (Int × Int × Int × Int × Nat)) c i0 i1 i2 v =>
          .ok ((c, i0, i1, i2, v) :: s))
        [] 0 ((2 + 1) % 3) 1 0 7 ∧
    SetSide2 (fun d _ => 2 - d) (fun s => s)
        (fun (s : List (Int × Int × Int × Int × Nat)) c i0 i1 i2 v =>
          .ok ((c, i0, i1, i2, v) :: s))
        1 2 3 [] 0 2 1 0 7
      = .ok [(2, 0, 1, 0, 7)] :=
  ⟨(C20_SetSide2_is_SetSide1_of_next (fun d _ => 2 - d) (fun s => s)
      (fun (s : List (Int × Int × Int × Int × Nat)) c i0 i1 i2 v =>
        .ok ((c, i0, i1, i2, v) :: s))
      1 2 3 [] 0 2 1 0 7 (by decide) (by decide) (by decide) (by decide) (by decide)
      (by decide) (by decide) (by decide)).1 rfl, rfl⟩

end Engine
